import Mathlib

/-!
Verification of the multi-cursor text editing engine of the guake editor
(src/guake/editor.py): the Casing convention helper, the search used by
match_cursor, cursor motion, and the multi-cursor transaction replay and
undo/redo machinery.

The document is a list of characters with stable offset addressing, as in
a GtkTextBuffer.  Toolkit marks are modelled as offsets together with a
gravity flag; every buffer mutation shifts all marks exactly as GTK does.
All strings are ASCII in the modelled scenarios; GTK case folding is
modelled by ASCII lower-casing.
-/

namespace Guake

/-! ## Document primitives (GtkTextBuffer text storage) -/

/-- Insert text t at character offset o (offset assumed already clamped). -/
def insertAt (d : List Char) (o : Nat) (t : List Char) : List Char :=
  d.take o ++ t ++ d.drop o

/-- Delete the character range [a, b). -/
def deleteRange (d : List Char) (a b : Nat) : List Char :=
  d.take a ++ d.drop b

/-- Read the text in the character range [a, b) (buffer.get_text). -/
def getText (d : List Char) (a b : Nat) : List Char :=
  (d.take b).drop a

/-- GtkTextBuffer.get_iter_at_offset clamps an integer offset into the
buffer; a negative offset denotes the end of the buffer. -/
def clampOff (len : Nat) (i : Int) : Nat :=
  if i < 0 then len else min i.toNat len

/-! ## Marks with gravity

A GtkTextMark sits at an offset; on an insertion at exactly its offset a
left-gravity mark stays put while a right-gravity mark moves past the
inserted text.  On a deletion, marks inside the deleted range collapse to
the range start. -/

/-- New offset of a mark after inserting n characters at offset o. -/
def markInsAdj (o n : Nat) (leftGrav : Bool) (m : Nat) : Nat :=
  if m < o then m
  else if m = o ∧ leftGrav then m
  else m + n

/-- New offset of a mark after deleting the range [a, b). -/
def markDelAdj (a b : Nat) (m : Nat) : Nat :=
  if m ≤ a then m
  else if b ≤ m then m - (b - a)
  else a

/-! ## Casing (editor.py class Casing)

The Python regexes are translated to decidable character-class predicates.
Python `re` semantics modelled: the dollar anchor matches at the end of the
string or just before a single final newline, and the dot never matches a
newline.  The `\w` class is modelled as its ASCII fragment [A-Za-z0-9_]
(all claims concern ASCII identifiers). -/

/-- Characters stripped by the match_surround regex groups ([_-]). -/
def isSepC (c : Char) : Bool := c == '_' || c == '-'

/-- Character class [a-z0-9_-] of the first alternative of the case regex. -/
def inLowerBody (c : Char) : Bool := c.isLower || c.isDigit || isSepC c

/-- Character class [A-Z0-9_-]. -/
def inUpperBody (c : Char) : Bool := c.isUpper || c.isDigit || isSepC c

/-- ASCII \w with hyphen: [A-Za-z0-9_-]. -/
def inWordH (c : Char) : Bool := c.isAlphanum || c == '_' || c == '-'

/-- ASCII \w: [A-Za-z0-9_]. -/
def inWord (c : Char) : Bool := c.isAlphanum || c == '_'

/-- Does the list contain an adjacent upper-case/lower-case pair? -/
def hasUpperLowerPair : List Char → Bool
  | a :: b :: rest => (a.isUpper && b.isLower) || hasUpperLowerPair (b :: rest)
  | _ => false

/-- Language of `^([a-z0-9_-]*[a-z]+[a-z0-9_-]*|[a-z][A-Za-z0-9]*)$`. -/
def langCase (t : List Char) : Bool :=
  (t.all inLowerBody && t.any Char.isLower) ||
  (match t with
   | c :: rest => c.isLower && rest.all Char.isAlphanum
   | [] => false)

/-- Language of `^[A-Z0-9_-]*[A-Z]+[A-Z0-9_-]*$`. -/
def langCASE (t : List Char) : Bool :=
  t.all inUpperBody && t.any Char.isUpper

/-- Language of `^([\w-]*[A-Z][a-z][\w-]*|[A-Z][a-z][A-Za-z0-9]*)$`. -/
def langCaseCap (t : List Char) : Bool :=
  (t.all inWordH && hasUpperLowerPair t) ||
  (match t with
   | a :: b :: rest => a.isUpper && b.isLower && rest.all Char.isAlphanum
   | _ => false)

/-- Language of `^([A-Z0-9]+|[a-z0-9]+|[A-Z][a-z][a-z0-9]*)$`. -/
def langSepNone (t : List Char) : Bool :=
  (!t.isEmpty && t.all (fun c => c.isUpper || c.isDigit)) ||
  (!t.isEmpty && t.all (fun c => c.isLower || c.isDigit)) ||
  (match t with
   | a :: b :: rest => a.isUpper && b.isLower && rest.all (fun c => c.isLower || c.isDigit)
   | _ => false)

/-- Language of `^[A-Za-z0-9]+$`. -/
def langSepEmpty (t : List Char) : Bool :=
  !t.isEmpty && t.all Char.isAlphanum

/-- Language of `^[\w]+$`. -/
def langSepUnder (t : List Char) : Bool :=
  !t.isEmpty && t.all inWord

/-- Language of `^[A-Za-z0-9-]+$`. -/
def langSepHyphen (t : List Char) : Bool :=
  !t.isEmpty && t.all (fun c => c.isAlphanum || c == '-')

/-- Drop one trailing newline if present: a `^...$` pattern over
newline-free character classes matches t exactly when its core language
accepts t minus an optional single final newline. -/
def dropFinalNL (t : List Char) : List Char :=
  if t.getLast? = some '\n' then t.dropLast else t

/-- Full-match of an anchored newline-free-class pattern, Python `$`
semantics included. -/
def reMatch (lang : List Char → Bool) (t : List Char) : Bool :=
  lang (dropFinalNL t)

/-- The groups of `^([_-]*)(.*?)([_-]*)$` when the regex matches: greedy
leading [_-] run, lazy middle, greedy trailing [_-] run.  The match fails
(None) exactly when the text minus an optional final newline still
contains a newline, since the dot cannot cross one. -/
def surroundMatch (t : List Char) : Option (List Char × List Char × List Char) :=
  let core := dropFinalNL t
  if core.contains '\n' then none
  else
    let p := core.takeWhile isSepC
    let rest := core.dropWhile isSepC
    let s := (rest.reverse.takeWhile isSepC).reverse
    let mid := (rest.reverse.dropWhile isSepC).reverse
    some (p, mid, s)

/-- The result of Casing detection/construction: case keyword, separator
keyword and surrounding [_-] decoration.  The Python separator value None
and the never-matched state are both modelled as `none` (they behave
identically in split and join). -/
structure Casing where
  case : Option String := none
  separator : Option String := none
  pre : List Char := []
  suf : List Char := []
deriving DecidableEq

/-- Ordered case patterns of Casing.match_cases. -/
def casePatterns : List (String × (List Char → Bool)) :=
  [("case", reMatch langCase), ("CASE", reMatch langCASE), ("Case", reMatch langCaseCap)]

/-- Ordered separator patterns of Casing.match_separators; the `none` key
is the Python None key. -/
def sepPatterns : List (Option String × (List Char → Bool)) :=
  [(none, reMatch langSepNone), (some "", reMatch langSepEmpty),
   (some "_", reMatch langSepUnder), (some "-", reMatch langSepHyphen)]

/-- Casing().detect(text): strip the [_-] surround (when the surround
regex matches), then take the first matching case pattern and the first
matching separator pattern, in order. -/
def Casing.detect (text : List Char) : Casing :=
  let (p, body, s) :=
    match surroundMatch text with
    | some g => g
    | none => ([], text, [])
  { case := (casePatterns.find? (fun pr => pr.2 body)).map (fun pr => pr.1),
    separator :=
      match sepPatterns.find? (fun pr => pr.2 body) with
      | some pr => pr.1
      | none => none,
    pre := p, suf := s }

/-- Python str.split(sep) on a single character separator: splitting the
empty list yields [[]]. -/
def splitOnC (sep : Char) : List Char → List (List Char)
  | [] => [[]]
  | c :: rest =>
    if c == sep then [] :: splitOnC sep rest
    else
      match splitOnC sep rest with
      | w :: ws => (c :: w) :: ws
      | [] => [[c]]

/-- re.sub of ([a-z])([A-Z]) with backslash-1 comma backslash-2: scan left
to right, non-overlapping. -/
def camelSub1 : List Char → List Char
  | a :: b :: rest =>
    if a.isLower && b.isUpper then a :: ',' :: b :: camelSub1 rest
    else a :: camelSub1 (b :: rest)
  | l => l

/-- re.sub of ([A-Z])([A-Z][a-z]): the match spans three characters. -/
def camelSub2 : List Char → List Char
  | a :: b :: c :: rest =>
    if a.isUpper && b.isUpper && c.isLower then a :: ',' :: b :: c :: camelSub2 rest
    else a :: camelSub2 (b :: c :: rest)
  | l => l

/-- The camel/Pascal boundary split used when the separator is the empty
string: insert commas at the two transition kinds, lowercase, split. -/
def camelSplit (t : List Char) : List (List Char) :=
  splitOnC ',' ((camelSub2 (camelSub1 t)).map Char.toLower)

/-- Casing.split: re-strip the surround, then split on the detected
separator. -/
def Casing.split (cg : Casing) (text : List Char) : List (List Char) :=
  let body :=
    match surroundMatch text with
    | some g => g.2.1
    | none => text
  if cg.separator = some "_" then splitOnC '_' body
  else if cg.separator = some "-" then splitOnC '-' body
  else if cg.separator = some "" then camelSplit body
  else [body]

/-- Python str.capitalize: first character upper-cased, the rest
lower-cased. -/
def capitalizeW : List Char → List Char
  | [] => []
  | c :: rest => c.toUpper :: rest.map Char.toLower

/-- Casing.join: re-case each word for the target case keyword (the
keyword "lower" used by fuzzy matching is none of the three recognised
keywords, so it re-cases nothing), camel-capitalize the word tail when the
separator is the empty string and the case is "case", join with the
separator (concatenation for None), and re-apply the surround. -/
def Casing.join (cg : Casing) (ws : List (List Char)) : List Char :=
  let ws1 :=
    if cg.case = some "case" then ws.map (List.map Char.toLower)
    else if cg.case = some "CASE" then ws.map (List.map Char.toUpper)
    else if cg.case = some "Case" then ws.map capitalizeW
    else ws
  let ws2 :=
    if cg.separator = some "" ∧ cg.case = some "case" then
      match ws1 with
      | [] => []
      | h :: rest => h :: rest.map capitalizeW
    else ws1
  let inner :=
    match cg.separator with
    | some s => List.intercalate s.toList ws2
    | none => ws2.flatten
  cg.pre ++ inner ++ cg.suf

/-! ## Forward search (GtkTextIter.forward_search)

A match must lie entirely inside [searchStart, limit); a literal search is
case sensitive, the CASE_INSENSITIVE flag is modelled by ASCII
lower-casing both sides.  The editor never searches for an empty string
(every call site guards against it). -/

/-- Case-insensitive list prefix test. -/
def ciIsPrefixOf : List Char → List Char → Bool
  | [], _ => true
  | _ :: _, [] => false
  | a :: as, b :: bs => (a.toLower == b.toLower) && ciIsPrefixOf as bs

/-- forward_search with flags 0: first literal occurrence of pat starting
at or after start, ending at or before the optional bound. -/
def forwardSearch (d pat : List Char) (start : Nat) (stop : Option Nat) :
    Option (Nat × Nat) :=
  if pat.isEmpty then none
  else
    let lim := match stop with | some s => min s d.length | none => d.length
    match (List.range' start (lim + 1 - start)).find?
        (fun p => decide (p + pat.length ≤ lim) && pat.isPrefixOf (d.drop p)) with
    | some p => some (p, p + pat.length)
    | none => none

/-- forward_search with the CASE_INSENSITIVE flag. -/
def forwardSearchCI (d pat : List Char) (start : Nat) (stop : Option Nat) :
    Option (Nat × Nat) :=
  if pat.isEmpty then none
  else
    let lim := match stop with | some s => min s d.length | none => d.length
    match (List.range' start (lim + 1 - start)).find?
        (fun p => decide (p + pat.length ≤ lim) && ciIsPrefixOf pat (d.drop p)) with
    | some p => some (p, p + pat.length)
    | none => none

/-- The alternative spellings built by get_next_match for a fuzzy search:
the selected text itself and the "lower"-cased underscore, hyphen and
concatenated joins of its detected words.  The Python set literal is
modelled as the list in construction order; duplicates are harmless and
order matters only for ties between prefix-related variants, which no
modelled scenario produces. -/
def fuzzyAlts (text : List Char) : List (List Char) :=
  let casing := Casing.detect text
  let words := casing.split text
  [text,
   Casing.join { case := some "lower", separator := some "_" } words,
   Casing.join { case := some "lower", separator := some "-" } words,
   Casing.join { case := some "lower", separator := some "" } words]

/-- get_next_match: literal search, or the earliest case-insensitive
occurrence of any non-empty fuzzy alternative (strictly earlier matches
replace the current candidate). -/
def getNextMatch (d text : List Char) (searchStart : Nat) (searchEnd : Option Nat)
    (fuzzy : Bool) : Option (Nat × Nat) :=
  if fuzzy then
    (fuzzyAlts text).foldl
      (fun earliest alt =>
        if alt.isEmpty then earliest
        else
          match forwardSearchCI d alt searchStart searchEnd with
          | some m =>
            match earliest with
            | some e => if m.1 < e.1 then some m else some e
            | none => some m
          | none => earliest)
      none
  else forwardSearch d text searchStart searchEnd

/-! ## Secondary cursors (editor.py class Cursor)

A Cursor owns a MarkTag: a start mark (gravity toggled by
set_capturing_gravity, normally left/capturing) and an end mark with right
gravity, plus a private clipboard slot and the vertical-motion column
memory.  The transient casing slot and the visual tracker/tag state have
no offset-level effect and are not modelled. -/

structure Cursor where
  start : Nat
  stop : Nat
  startLeftGravity : Bool
  clipboard : List Char
  lineOffset : Option Nat
deriving DecidableEq

/-- The snapshotted range of a cursor. -/
def offsOf (c : Cursor) : Nat × Nat :=
  (c.start, c.stop)

/-- A freshly added cursor (Cursor.__init__): capturing start gravity,
empty private clipboard, no remembered column. -/
def mkCursor (a b : Nat) : Cursor :=
  { start := a, stop := b, startLeftGravity := true, clipboard := [], lineOffset := none }

/-- Mark adjustment of one cursor under an insertion of n characters at
offset o. -/
def Cursor.adjIns (c : Cursor) (o n : Nat) : Cursor :=
  { c with start := markInsAdj o n c.startLeftGravity c.start,
           stop := markInsAdj o n false c.stop }

/-- Mark adjustment of one cursor under a deletion of [a, b). -/
def Cursor.adjDel (c : Cursor) (a b : Nat) : Cursor :=
  { c with start := markDelAdj a b c.start, stop := markDelAdj a b c.stop }

/-! ## Cursor motion (Cursor.move / Cursor.move_iter)

Movement steps modelled: VISUAL_POSITIONS (per-character caret motion)
and DISPLAY_LINE_ENDS (line start / line end).  WORDS and DISPLAY_LINES
depend on Pango word attributes and display-line wrapping that live
outside the buffer model. -/

inductive MovementStep
  | visualPositions
  | displayLineEnds
deriving DecidableEq

/-- Offset of the first line-end (newline position or end of buffer) at or
after p. -/
def lineEndFrom (d : List Char) (p : Nat) : Nat :=
  match (List.range' p (d.length + 1 - p)).find?
      (fun q => decide (q = d.length) || (d.getD q ' ' == '\n')) with
  | some q => q
  | none => d.length

/-- Offset of the start of the line containing p: one past the last
newline strictly before p. -/
def lineStartOf (d : List Char) (p : Nat) : Nat :=
  match ((List.range p).filter (fun q => d.getD q ' ' == '\n')).getLast? with
  | some q => q + 1
  | none => 0

/-- GtkTextIter.forward_to_line_end: if already on a line end, move to the
next line end. -/
def forwardToLineEnd (d : List Char) (p : Nat) : Nat :=
  if p < d.length ∧ d.getD p ' ' == '\n' then lineEndFrom d (p + 1)
  else if p = d.length then d.length
  else lineEndFrom d p

/-- Cursor.move_iter restricted to the modelled steps; returns the new
offset and the new remembered-column state (cleared for non-vertical
steps). -/
def moveIter (d : List Char) (pos : Nat) (step : MovementStep) (count : Int)
    (_lineOffset : Option Nat) : Nat × Option Nat :=
  match step with
  | .visualPositions =>
    (if count < 0 then pos - (-count).toNat else min (pos + count.toNat) d.length,
     none)
  | .displayLineEnds =>
    (if count < 0 then lineStartOf d pos else forwardToLineEnd d pos, none)

/-- Cursor.move: extending motion grows the start (leftward) or the end
(rightward); non-extending motion collapses to the start or end of the
selection, and applies the motion step only when there was no selection to
collapse. -/
def Cursor.move (d : List Char) (c : Cursor) (step : MovementStep) (count : Int)
    (extendSel : Bool) : Cursor :=
  if extendSel then
    if count < 0 then
      let (p, lo) := moveIter d c.start step count c.lineOffset
      { c with start := p, lineOffset := lo }
    else
      let (p, lo) := moveIter d c.stop step count c.lineOffset
      { c with stop := p, lineOffset := lo }
  else
    let hasSelection := c.start ≠ c.stop
    let newPos := if count < 0 then c.start else c.stop
    if ¬ hasSelection then
      let (p, lo) := moveIter d newPos step count c.lineOffset
      { c with start := p, stop := p, lineOffset := lo }
    else
      { c with start := newPos, stop := newPos }

/-! ## Undo actions (InsertAction / DeleteAction) -/

inductive UAction
  | ains (o : Nat) (t : List Char)
  | adel (o : Nat) (t : List Char)
deriving DecidableEq

/-- One recorded undo group: a CompositeAction, or a MultiCursorUndoAction
which additionally snapshots the primary (insert, selection_bound) offsets
and every secondary cursor range before and after the transaction.  The
Python snapshot dictionary keyed by cursor object is modelled positionally
(the cursor list is unchanged between snapshot and restore in every
modelled scenario, so position determines identity). -/
inductive Group
  | composite (actions : List UAction)
  | multi (actions : List UAction) (primBefore : Nat × Nat)
      (secBefore : List (Nat × Nat)) (primAfter : Nat × Nat)
      (secAfter : List (Nat × Nat))
deriving DecidableEq

/-! ## Editor state

doc, the primary "insert" and "selection_bound" marks (both right
gravity, as in GTK), the secondary cursors, the transient match
highlights, the undo/redo stacks (top of stack at the head), the shared
clipboard snapshot and the paste-in-progress flag. -/

structure EditorState where
  doc : List Char
  insOff : Nat
  selOff : Nat
  cursors : List Cursor
  matchTags : List (Nat × Nat)
  undoStack : List Group
  redoStack : List Group
  clipboard : List Char
  handledPaste : Bool
deriving DecidableEq

/-- Raw buffer insertion: clamp the offset, splice the text, shift every
mark per its gravity. -/
def bufInsert (st : EditorState) (o : Nat) (t : List Char) : EditorState :=
  let o2 := min o st.doc.length
  { st with doc := insertAt st.doc o2 t,
            insOff := markInsAdj o2 t.length false st.insOff,
            selOff := markInsAdj o2 t.length false st.selOff,
            cursors := st.cursors.map (fun c => c.adjIns o2 t.length) }

/-- Raw buffer deletion: order and clamp the iters (as
gtk_text_buffer_delete does), remove the range, shift every mark. -/
def bufDelete (st : EditorState) (a b : Nat) : EditorState :=
  let x := min (min a b) st.doc.length
  let y := min (max a b) st.doc.length
  { st with doc := deleteRange st.doc x y,
            insOff := markDelAdj x y st.insOff,
            selOff := markDelAdj x y st.selOff,
            cursors := st.cursors.map (fun c => c.adjDel x y) }

/-- An insertion observed by UndoManager._on_insert_text: the mutation
plus the recorded InsertAction (actual clamped offset, literal text). -/
def recIns (st : EditorState) (o : Nat) (t : List Char) : EditorState × UAction :=
  (bufInsert st o t, .ains (min o st.doc.length) t)

/-- A deletion observed by UndoManager._on_delete_range: the mutation plus
the recorded DeleteAction (range start, deleted text read before the
deletion). -/
def recDel (st : EditorState) (a b : Nat) : EditorState × UAction :=
  let x := min (min a b) st.doc.length
  let y := min (max a b) st.doc.length
  (bufDelete st a b, .adel x (getText st.doc x y))

/-- Replaying one action forward (UndoAction.redo); performed under the
undo_lock, so nothing is recorded, but marks still shift. -/
def applyRedoA (st : EditorState) : UAction → EditorState
  | .ains o t => bufInsert st o t
  | .adel o t => bufDelete st o (o + t.length)

/-- Inverting one action (UndoAction.undo): an insertion is undone by
deleting the same span, a deletion by reinserting the saved text. -/
def applyUndoA (st : EditorState) : UAction → EditorState
  | .ains o t => bufDelete st o (o + t.length)
  | .adel o t => bufInsert st o t

/-! ## Cursor add / clipboard hooks -/

/-- TextEditorDialog.add_cursor: append a new cursor, unconditionally
(edit-interception hooks are modelled by the cursor-list-nonempty
conditions below). -/
def addCursor (st : EditorState) (a b : Nat) : EditorState :=
  { st with cursors := st.cursors ++ [mkCursor a b] }

/-- TextEditorDialog.mc_paste_clipboard: mark the next insertion as a
paste. -/
def mcPasteClipboard (st : EditorState) : EditorState :=
  { st with handledPaste := true }

/-! ## Multi-cursor replay (mc_insert / mc_delete)

At end-user-action each buffered primitive is replayed against every
secondary cursor, cursors processed in descending order of current start
offset (Python sorted with reverse=True is stable; modelled by a stable
insertion sort over cursor indices). -/

/-- Sort key: current start offset of cursor i. -/
def keyStart (cs : List Cursor) (i : Nat) : Nat :=
  match cs[i]? with
  | some c => c.start
  | none => 0

/-- Insert index i into an already descending index list, before any index
of equal key (stability). -/
def insDescIdx (cs : List Cursor) (i : Nat) : List Nat → List Nat
  | [] => [i]
  | j :: rest =>
    if keyStart cs i < keyStart cs j then j :: insDescIdx cs i rest
    else i :: j :: rest

/-- Stable descending insertion sort of cursor indices by start offset. -/
def sortIdxDesc (cs : List Cursor) : List Nat → List Nat
  | [] => []
  | i :: rest => insDescIdx cs i (sortIdxDesc cs rest)

/-- Indices of the cursors in descending current-start order. -/
def sortedIdxDesc (cs : List Cursor) : List Nat :=
  sortIdxDesc cs (List.range cs.length)

/-- Toggle the start-mark gravity of cursor i (set_capturing_gravity: the
mark is recreated at the same offset). -/
def setGrav (st : EditorState) (i : Nat) (g : Bool) : EditorState :=
  match st.cursors[i]? with
  | some c => { st with cursors := st.cursors.set i { c with startLeftGravity := g } }
  | none => st

/-- Cursor.insert for cursor i: resolve start+delta, disable capturing
gravity, insert (recorded by the open action group), re-enable capturing
gravity. -/
def cursorInsertIdx (st : EditorState) (i : Nat) (delta : Int) (t : List Char) :
    EditorState × List UAction :=
  match st.cursors[i]? with
  | none => (st, [])
  | some c =>
    let o := clampOff st.doc.length ((c.start : Int) + delta)
    let st1 := setGrav st i false
    let p := recIns st1 o t
    (setGrav p.1 i true, [p.2])

/-- Cursor.delete for cursor i: resolve both deltas against the current
range and delete it (the had_length tag resync is visual only). -/
def cursorDeleteIdx (st : EditorState) (i : Nat) (sd ed : Int) :
    EditorState × List UAction :=
  match st.cursors[i]? with
  | none => (st, [])
  | some c =>
    let a := clampOff st.doc.length ((c.start : Int) + sd)
    let b := clampOff st.doc.length ((c.stop : Int) + ed)
    let p := recDel st a b
    (p.1, [p.2])

/-- The mc_insert loop body over an index order, with a per-cursor
effective text (the paste branch substitutes per-cursor cached text). -/
def runIns (delta : Int) (eff : Cursor → List Char) :
    List Nat → EditorState → EditorState × List UAction
  | [], st => (st, [])
  | i :: rest, st =>
    let t :=
      match st.cursors[i]? with
      | some c => eff c
      | none => []
    let p := cursorInsertIdx st i delta t
    let q := runIns delta eff rest p.1
    (q.1, p.2 ++ q.2)

/-- TextEditorDialog.mc_insert: descending replay; during a paste whose
text equals the captured clipboard, each cursor inserts its own cached
text when non-empty, the literal text otherwise; the paste flag is then
reset. -/
def mcInsert (st : EditorState) (delta : Int) (t : List Char) :
    EditorState × List UAction :=
  let idxs := sortedIdxDesc st.cursors
  let p :=
    if st.handledPaste ∧ t = st.clipboard then
      runIns delta (fun c => if c.clipboard = [] then t else c.clipboard) idxs st
    else
      runIns delta (fun _ => t) idxs st
  ({ p.1 with handledPaste := false }, p.2)

/-- The mc_delete loop over an index order. -/
def runDel (sd ed : Int) : List Nat → EditorState → EditorState × List UAction
  | [], st => (st, [])
  | i :: rest, st =>
    let p := cursorDeleteIdx st i sd ed
    let q := runDel sd ed rest p.1
    (q.1, p.2 ++ q.2)

/-- TextEditorDialog.mc_delete: descending replay of a deletion. -/
def mcDelete (st : EditorState) (sd ed : Int) : EditorState × List UAction :=
  runDel sd ed (sortedIdxDesc st.cursors) st

/-! ## One user-action transaction that types text T

Models the full signal sequence of typing (or pasting) T at the primary
caret: begin-user-action (snapshot when cursors exist), deletion of a
non-empty primary selection (recorded; buffered as mc_delete with both
deltas 0), insertion of T at the collapsed caret (recorded; buffered as
mc_insert with delta 0; GTK emits no signal for an empty text), then at
end-user-action the buffered edits are replayed against the secondary
cursors under the programmatic-modification guard (still recorded by the
still-open group), match highlights are cleared, the post snapshot is
taken and the non-empty group is pushed, clearing the redo stack. -/

/-- The recorded primary-selection deletion, when the selection is not
empty (GTK emits no delete-range signal for an empty range). -/
def corePhase1 (st : EditorState) (s e : Nat) : EditorState × List UAction :=
  if s ≠ e then (fun p => (p.1, [p.2])) (recDel st s e) else (st, [])

/-- The recorded insertion of the typed text at the collapsed caret, when
non-empty (GTK emits no insert-text signal for empty text). -/
def corePhase2 (st : EditorState) (s : Nat) (T : List Char) : EditorState × List UAction :=
  if T ≠ [] then (fun p => (p.1, [p.2])) (recIns st s T) else (st, [])

/-- The end-user-action replay of the buffered edits against the
secondary cursors, in buffering order: the selection deletion (deltas 0)
then the text insertion (delta 0). -/
def replayPhase (st : EditorState) (hadSel : Bool) (T : List Char) :
    EditorState × List UAction :=
  let pa := if hadSel then mcDelete st 0 0 else (st, [])
  let pb := if T ≠ [] then mcInsert pa.1 0 T else (pa.1, [])
  (pb.1, pa.2 ++ pb.2)

/-- clear_matches, performed by end_user_action exactly when a buffered
replay ran. -/
def clearPhase (st : EditorState) (doClear : Bool) : EditorState :=
  if doClear then { st with matchTags := [] } else st

def typeTextCore (st : EditorState) (T : List Char) : EditorState × List UAction :=
  let s := min st.insOff st.selOff
  let e := max st.insOff st.selOff
  let p1 := corePhase1 st s e
  let p2 := corePhase2 p1.1 s T
  let p3 := if st.cursors ≠ [] then replayPhase p2.1 (decide (s ≠ e)) T else (p2.1, [])
  (clearPhase p3.1 (decide (st.cursors ≠ []) && (decide (s ≠ e) || decide (T ≠ []))),
   p1.2 ++ p2.2 ++ p3.2)

/-- The group pushed for one transaction: a MultiCursorUndoAction when
secondary cursors existed at begin-user-action, else a CompositeAction. -/
def mkGroup (st stPost : EditorState) (acts : List UAction) : Group :=
  if st.cursors ≠ [] then
    .multi acts (st.insOff, st.selOff) (st.cursors.map offsOf)
      (stPost.insOff, stPost.selOff) (stPost.cursors.map offsOf)
  else .composite acts

/-- The group recorded by typing T from state st. -/
def txnGroup (st : EditorState) (T : List Char) : Group :=
  mkGroup st (typeTextCore st T).1 (typeTextCore st T).2

/-- The complete transaction: run the core, then push the group (if any
action was recorded) and clear the redo stack. -/
def typeText (st : EditorState) (T : List Char) : EditorState :=
  let p := typeTextCore st T
  if p.2 = [] then p.1
  else { p.1 with undoStack := txnGroup st T :: p.1.undoStack, redoStack := [] }

/-! ## UndoManager.undo / redo -/

/-- Restore one cursor range per snapshot entry
(MultiCursorUndoAction.undo/redo loop: get_iter_at_offset clamps, then
move_marks). -/
def restoreCursors (len : Nat) : List Cursor → List (Nat × Nat) → List Cursor
  | c :: cs, p :: ps =>
    { c with start := min p.1 len, stop := min p.2 len } :: restoreCursors len cs ps
  | cs, [] => cs
  | [], _ => []

/-- Restore the primary and secondary offsets from a snapshot. -/
def restoreMarks (st : EditorState) (p : Nat × Nat) (sec : List (Nat × Nat)) :
    EditorState :=
  { st with insOff := min p.1 st.doc.length,
            selOff := min p.2 st.doc.length,
            cursors := restoreCursors st.doc.length st.cursors sec }

/-- Group undo: invert the actions in reverse order; a
MultiCursorUndoAction then restores the pre-transaction snapshots. -/
def groupUndo (st : EditorState) : Group → EditorState
  | .composite acts => acts.reverse.foldl applyUndoA st
  | .multi acts pb sb _ _ => restoreMarks (acts.reverse.foldl applyUndoA st) pb sb

/-- Group redo: replay the actions in original order; a
MultiCursorUndoAction then restores the post-transaction snapshots. -/
def groupRedo (st : EditorState) : Group → EditorState
  | .composite acts => acts.foldl applyRedoA st
  | .multi acts _ _ pa sa => restoreMarks (acts.foldl applyRedoA st) pa sa

/-- UndoManager.undo: no-op on an empty stack, else pop, invert under the
re-entrancy guard, push the group onto the redo stack. -/
def umUndo (st : EditorState) : EditorState :=
  match st.undoStack with
  | [] => st
  | g :: rest =>
    let st1 := groupUndo { st with undoStack := rest } g
    { st1 with redoStack := g :: st1.redoStack }

/-- UndoManager.redo: symmetric. -/
def umRedo (st : EditorState) : EditorState :=
  match st.redoStack with
  | [] => st
  | g :: rest =>
    let st1 := groupRedo { st with redoStack := rest } g
    { st1 with undoStack := g :: st1.undoStack }

/-- A sequence of typing transactions. -/
def applyTxns (st : EditorState) : List (List Char) → EditorState
  | [] => st
  | T :: rest => applyTxns (typeText st T) rest

/-- The groups recorded by a sequence of typing transactions, first
transaction first. -/
def txnGroups (st : EditorState) : List (List Char) → List Group
  | [] => []
  | T :: rest => txnGroup st T :: txnGroups (typeText st T) rest

/-! ## match_cursor -/

/-- order_iters on a pair of offsets. -/
def orderPair (a b : Nat) : Nat × Nat :=
  if b < a then (b, a) else (a, b)

/-- The tag_all_matches scan: all matches from the document start, the one
starting exactly at the primary selection start skipped; fuel bounds the
loop (each match ends strictly later than it starts). -/
def tagLoop (d text : List Char) (fz : Bool) (selStart : Nat) :
    Nat → Nat → List (Nat × Nat)
  | 0, _ => []
  | fuel + 1, pos =>
    match getNextMatch d text pos none fz with
    | none => []
    | some (a, b) =>
      if a = selStart then tagLoop d text fz selStart fuel b
      else (a, b) :: tagLoop d text fz selStart fuel b

/-- TextEditorDialog.tag_all_matches: highlight every other occurrence of
the selected text. -/
def tagAllMatches (st : EditorState) (text : List Char) (fz : Bool) : EditorState :=
  let s := (orderPair st.insOff st.selOff).1
  { st with matchTags := st.matchTags ++ tagLoop st.doc text fz s (st.doc.length + 1) 0 }

/-- TextEditorDialog.match_cursor: select-next-occurrence.  First call
highlights all matches and searches from the primary selection end;
subsequent calls search from the end of the most recent cursor; on
failure the search wraps once from the document start up to the selection
start; on success a cursor spanning the match is added, otherwise the call
is a no-op. -/
def matchCursor (st : EditorState) (fz : Bool) : EditorState :=
  let se := orderPair st.insOff st.selOff
  let text := getText st.doc se.1 se.2
  if text = [] then st
  else
    let firstCall := st.cursors.getLast?.isNone
    let st1 := if firstCall then tagAllMatches st text fz else st
    let searchStart :=
      match st.cursors.getLast? with
      | some c => c.stop
      | none => se.2
    let searchEnd := if searchStart < se.1 then some se.1 else none
    let m0 := getNextMatch st1.doc text searchStart searchEnd fz
    let m :=
      match m0 with
      | some x => some x
      | none =>
        if se.2 ≤ searchStart then getNextMatch st1.doc text 0 (some se.1) fz
        else none
    match m with
    | some x => addCursor st1 x.1 x.2
    | none => st1

/-! ## Specification-side definitions and proof scaffolding -/

/-- Wellformedness: every mark offset lies inside the document. -/
@[reducible] def Wf (st : EditorState) : Prop :=
  st.insOff ≤ st.doc.length ∧ st.selOff ≤ st.doc.length ∧
  ∀ c ∈ st.cursors, c.start ≤ st.doc.length ∧ c.stop ≤ st.doc.length

/-- Document component of a raw insertion (offset clamped). -/
def docIns (d : List Char) (o : Nat) (t : List Char) : List Char :=
  insertAt d (min o d.length) t

/-- Document component of a raw deletion (range ordered and clamped). -/
def docDel (d : List Char) (a b : Nat) : List Char :=
  deleteRange d (min (min a b) d.length) (min (max a b) d.length)

/-- Document effect of replaying one recorded action. -/
def docRedoA (d : List Char) : UAction → List Char
  | .ains o t => docIns d o t
  | .adel o t => docDel d o (o + t.length)

/-- Document effect of inverting one recorded action. -/
def docUndoA (d : List Char) : UAction → List Char
  | .ains o t => docDel d o (o + t.length)
  | .adel o t => docIns d o t

/-- A recorded action is exact for a document transition: replaying it
maps d to d2 and inverting it maps d2 back to d. -/
def StepOK (d : List Char) (a : UAction) (d2 : List Char) : Prop :=
  docRedoA d a = d2 ∧ docUndoA d2 a = d

/-- An action list is an exact trace from d to d2. -/
inductive TraceOK : List Char → List UAction → List Char → Prop
  | nil (d : List Char) : TraceOK d [] d
  | cons {d d1 d2 : List Char} {a : UAction} {as : List UAction} :
      StepOK d a d1 → TraceOK d1 as d2 → TraceOK d (a :: as) d2

/-- The non-offset data of a cursor (gravity, private clipboard,
remembered column): untouched by mark adjustment and snapshot restore. -/
def junkOf (c : Cursor) : Bool × List Char × Option Nat :=
  (c.startLeftGravity, c.clipboard, c.lineOffset)

/-- What the undo/redo machinery never touches: both stacks are managed
only at the umUndo/umRedo level, and match highlights, the shared
clipboard, the paste flag and all non-offset cursor data are carried
through unchanged. -/
def Carried (s s2 : EditorState) : Prop :=
  s2.undoStack = s.undoStack ∧ s2.redoStack = s.redoStack ∧
  s2.matchTags = s.matchTags ∧ s2.clipboard = s.clipboard ∧
  s2.handledPaste = s.handledPaste ∧
  s2.cursors.map junkOf = s.cursors.map junkOf ∧
  s2.cursors.length = s.cursors.length

/-- Cursor list with offsets taken from the snapshot list and all other
data kept. -/
def withOffsets : List Cursor → List (Nat × Nat) → List Cursor
  | c :: cs, p :: ps => { c with start := p.1, stop := p.2 } :: withOffsets cs ps
  | cs, [] => cs
  | [], _ => []

/-- The state reached after undoing a whole run of transactions made from
base: document and marks of base, transaction groups moved onto the redo
stack, all fields the undo machinery never touches still those of the
final state. -/
def unwound (base fin : EditorState) (gs : List Group) : EditorState :=
  { fin with doc := base.doc, insOff := base.insOff, selOff := base.selOff,
             cursors := withOffsets fin.cursors (base.cursors.map offsOf),
             undoStack := base.undoStack,
             redoStack := gs ++ fin.redoStack }

/-- Summary of one recorded editing step between states: exact action
trace, cursor count preserved, stacks untouched, wellformedness
preserved. -/
def OpOK (st st2 : EditorState) (as : List UAction) : Prop :=
  TraceOK st.doc as st2.doc ∧
  st2.cursors.length = st.cursors.length ∧
  st2.undoStack = st.undoStack ∧ st2.redoStack = st.redoStack ∧
  (Wf st → Wf st2)

/-- The classification the specification claim describes, for comparison:
strip ANY non-alphanumeric prefix and suffix, then classify with the same
ordered pattern lists. -/
def detectPerClaim (t : List Char) : Casing :=
  let p := t.takeWhile (fun c => !c.isAlphanum)
  let rest := t.dropWhile (fun c => !c.isAlphanum)
  let s := (rest.reverse.takeWhile (fun c => !c.isAlphanum)).reverse
  let body := (rest.reverse.dropWhile (fun c => !c.isAlphanum)).reverse
  { case := (casePatterns.find? (fun pr => pr.2 body)).map (fun pr => pr.1),
    separator :=
      match sepPatterns.find? (fun pr => pr.2 body) with
      | some pr => pr.1
      | none => none,
    pre := p, suf := s }

/-! ## Concrete scenario states -/

/-- Document "foo bar foo baz foo" with the first "foo" selected and no
secondary cursors. -/
def matchScenario : EditorState :=
  { doc := "foo bar foo baz foo".toList, insOff := 0, selOff := 3, cursors := [],
    matchTags := [], undoStack := [], redoStack := [], clipboard := [],
    handledPaste := false }

/-- Document holding four spellings of one identifier, with the
underscore spelling selected. -/
def fuzzyScenario : EditorState :=
  { doc := "my_variable myVariable my-variable myvariable".toList,
    insOff := 0, selOff := 11, cursors := [],
    matchTags := [], undoStack := [], redoStack := [], clipboard := [],
    handledPaste := false }

/-- Arbitrary document with degenerate secondary cursors at offsets 5, 12
and 20 and the primary caret at offset 0. -/
def tripleCursorState (d : List Char) : EditorState :=
  { doc := d, insOff := 0, selOff := 0,
    cursors := [mkCursor 5 5, mkCursor 12 12, mkCursor 20 20],
    matchTags := [], undoStack := [], redoStack := [], clipboard := [],
    handledPaste := false }

/-- Intermediate state of the C3 replay computation: document dd, both
primary marks at offset 1, three degenerate cursors. -/
def c3State (dd : List Char) (a b c : Nat) : EditorState :=
  { doc := dd, insOff := 1, selOff := 1,
    cursors := [mkCursor a a, mkCursor b b, mkCursor c c],
    matchTags := [], undoStack := [], redoStack := [], clipboard := [],
    handledPaste := false }

/-- One-character document, caret at the end, no cursors. -/
def tinyState : EditorState :=
  { doc := ['a'], insOff := 1, selOff := 1, cursors := [],
    matchTags := [], undoStack := [], redoStack := [], clipboard := [],
    handledPaste := false }

/-- Document "ab cd", caret at the end, a cursor with an empty private
clipboard at offset 0 and a cursor with cached text "xy" at offset 3; the
shared clipboard snapshot is "Q". -/
def pasteScenario : EditorState :=
  { doc := "ab cd".toList, insOff := 5, selOff := 5,
    cursors := [mkCursor 0 0, { mkCursor 3 3 with clipboard := "xy".toList }],
    matchTags := [], undoStack := [], redoStack := [], clipboard := ['Q'],
    handledPaste := false }

/-- Document "abcd" with one degenerate cursor at offset 1 and the caret
at the end: a small wellformed multi-cursor state. -/
def smallState : EditorState :=
  { doc := "abcd".toList, insOff := 4, selOff := 4, cursors := [mkCursor 1 1],
    matchTags := [], undoStack := [], redoStack := [], clipboard := [],
    handledPaste := false }

/-! ## List algebra for document edits -/

theorem length_insertAt (d : List Char) (o : Nat) (t : List Char) (h : o ≤ d.length) :
    (insertAt d o t).length = d.length + t.length := by
  simp [insertAt]
  omega

theorem deleteRange_insertAt_self (d : List Char) (o : Nat) (t : List Char)
    (h : o ≤ d.length) :
    deleteRange (insertAt d o t) o (o + t.length) = d := by
  have h1 : (d.take o).length = o := by simp; omega
  have e1 : (d.take o ++ t ++ d.drop o).take o = d.take o := by
    rw [List.append_assoc]
    exact List.take_left' h1
  have e2 : (d.take o ++ t ++ d.drop o).drop (o + t.length) = d.drop o := by
    have h2 : (d.take o ++ t).length = o + t.length := by simp [h1]
    exact List.drop_left' h2
  unfold insertAt deleteRange
  rw [e1, e2, List.take_append_drop]

theorem insertAt_deleteRange_self (d : List Char) (a b : Nat)
    (hab : a ≤ b) (hb : b ≤ d.length) :
    insertAt (deleteRange d a b) a (getText d a b) = d := by
  have h1 : (d.take a).length = a := by simp; omega
  have e1 : (d.take a ++ d.drop b).take a = d.take a := List.take_left' h1
  have e2 : (d.take a ++ d.drop b).drop a = d.drop b := List.drop_left' h1
  unfold insertAt deleteRange getText
  rw [e1, e2]
  have e3 : d.take a = (d.take b).take a := by
    rw [List.take_take, Nat.min_eq_left hab]
  rw [e3, List.take_append_drop, List.take_append_drop]

theorem length_deleteRange (d : List Char) (a b : Nat) (hab : a ≤ b) (hb : b ≤ d.length) :
    (deleteRange d a b).length = d.length - (b - a) := by
  simp [deleteRange]
  omega

theorem length_getText (d : List Char) (a b : Nat) (hab : a ≤ b) (hb : b ≤ d.length) :
    (getText d a b).length = b - a := by
  simp [getText]
  omega

theorem insertAt_comm (d : List Char) (o1 o2 : Nat) (t1 t2 : List Char)
    (h12 : o1 ≤ o2) (h2 : o2 ≤ d.length) :
    insertAt (insertAt d o1 t1) (o2 + t1.length) t2 = insertAt (insertAt d o2 t2) o1 t1 := by
  have canonL : insertAt (insertAt d o1 t1) (o2 + t1.length) t2
      = d.take o1 ++ t1 ++ (d.drop o1).take (o2 - o1) ++ t2 ++ d.drop o2 := by
    unfold insertAt
    simp only [List.take_append_eq_append_take, List.drop_append_eq_append_drop,
      List.length_append, List.length_take]
    have m1 : min o1 d.length = o1 := by omega
    simp only [m1]
    have r1 : (d.take o1).take (o2 + t1.length) = d.take o1 :=
      List.take_of_length_le (by simp; omega)
    have r3 : t1.take (o2 + t1.length - o1) = t1 :=
      List.take_of_length_le (by omega)
    have r4 : (d.take o1).drop (o2 + t1.length) = [] :=
      List.drop_eq_nil_of_le (by simp; omega)
    have r5 : t1.drop (o2 + t1.length - o1) = [] :=
      List.drop_eq_nil_of_le (by omega)
    have r6 : o2 + t1.length - (o1 + t1.length) = o2 - o1 := by omega
    have r7 : (d.drop o1).drop (o2 - o1) = d.drop o2 := by
      rw [List.drop_drop]
      congr 1
      omega
    rw [r1, r3, r4, r5, r6, r7]
    simp
  have canonR : insertAt (insertAt d o2 t2) o1 t1
      = d.take o1 ++ t1 ++ (d.drop o1).take (o2 - o1) ++ t2 ++ d.drop o2 := by
    unfold insertAt
    simp only [List.take_append_eq_append_take, List.drop_append_eq_append_drop,
      List.length_append, List.length_take]
    have m2 : min o2 d.length = o2 := by omega
    simp only [m2]
    have r2 : (d.take o2).take o1 = d.take o1 := by
      rw [List.take_take, Nat.min_eq_left h12]
    have r8 : t2.take (o1 - o2) = [] := by
      simp [Nat.sub_eq_zero_of_le h12]
    have r9 : t2.drop (o1 - o2) = t2 := by
      simp [Nat.sub_eq_zero_of_le h12]
    have r10 : (d.drop o2).take (o1 - (o2 + t2.length)) = [] := by
      simp [show o1 - (o2 + t2.length) = 0 from by omega]
    have r11 : (d.drop o2).drop (o1 - (o2 + t2.length)) = d.drop o2 := by
      simp [show o1 - (o2 + t2.length) = 0 from by omega]
    have r12 : (d.take o2).drop o1 = (d.drop o1).take (o2 - o1) := by
      rw [List.drop_take]
    rw [r2, r8, r9, r10, r11, r12]
    simp [List.append_assoc]
  rw [canonL, canonR]

/-! ## Exactness of recorded actions -/

theorem stepOK_ins_core (d : List Char) (o : Nat) (t : List Char) (ho : o ≤ d.length) :
    StepOK d (.ains o t) (insertAt d o t) := by
  constructor
  · show docIns d o t = insertAt d o t
    simp [docIns, Nat.min_eq_left ho]
  · show docDel (insertAt d o t) o (o + t.length) = d
    have hl := length_insertAt d o t ho
    simp only [docDel, hl]
    have e1 : min (min o (o + t.length)) (d.length + t.length) = o := by omega
    have e2 : min (max o (o + t.length)) (d.length + t.length) = o + t.length := by omega
    rw [e1, e2]
    exact deleteRange_insertAt_self d o t ho

theorem stepOK_del_core (d : List Char) (x y : Nat) (hxy : x ≤ y) (hyl : y ≤ d.length) :
    StepOK d (.adel x (getText d x y)) (deleteRange d x y) := by
  constructor
  · show docDel d x (x + (getText d x y).length) = deleteRange d x y
    have hg : (getText d x y).length = y - x := length_getText d x y hxy hyl
    simp only [docDel, hg]
    rw [show x + (y - x) = y from by omega]
    have e1 : min (min x y) d.length = x := by omega
    have e2 : min (max x y) d.length = y := by omega
    rw [e1, e2]
  · show docIns (deleteRange d x y) x (getText d x y) = d
    have hl := length_deleteRange d x y hxy hyl
    simp only [docIns, hl]
    rw [show min x (d.length - (y - x)) = x from by omega]
    exact insertAt_deleteRange_self d x y hxy hyl

theorem stepOK_recIns (st : EditorState) (o : Nat) (t : List Char) :
    StepOK st.doc (recIns st o t).2 (recIns st o t).1.doc :=
  stepOK_ins_core st.doc (min o st.doc.length) t (Nat.min_le_right _ _)

theorem stepOK_recDel (st : EditorState) (a b : Nat) :
    StepOK st.doc (recDel st a b).2 (recDel st a b).1.doc :=
  stepOK_del_core st.doc (min (min a b) st.doc.length) (min (max a b) st.doc.length)
    (by omega) (by omega)

/-! ## Trace lemmas -/

theorem traceOK_single {d d2 : List Char} {a : UAction} (h : StepOK d a d2) :
    TraceOK d [a] d2 :=
  TraceOK.cons h (TraceOK.nil d2)

theorem traceOK_append {d d1 d2 : List Char} {as bs : List UAction}
    (h1 : TraceOK d as d1) (h2 : TraceOK d1 bs d2) : TraceOK d (as ++ bs) d2 := by
  induction h1 with
  | nil => simpa using h2
  | cons s t ih => exact TraceOK.cons s (ih h2)

theorem traceOK_redo {d d2 : List Char} {as : List UAction} (h : TraceOK d as d2) :
    as.foldl docRedoA d = d2 := by
  induction h with
  | nil => rfl
  | cons s t ih => simpa [s.1] using ih

theorem traceOK_undo {d d2 : List Char} {as : List UAction} (h : TraceOK d as d2) :
    as.reverse.foldl docUndoA d2 = d := by
  induction h with
  | nil => rfl
  | cons s t ih =>
    rename_i d0 d1 dend a as0
    simp only [List.reverse_cons, List.foldl_append, ih, List.foldl_cons, List.foldl_nil]
    exact s.2

/-! ## State projections and carried data -/

theorem estate_ext {a b : EditorState} (h1 : a.doc = b.doc) (h2 : a.insOff = b.insOff)
    (h3 : a.selOff = b.selOff) (h4 : a.cursors = b.cursors)
    (h5 : a.matchTags = b.matchTags) (h6 : a.undoStack = b.undoStack)
    (h7 : a.redoStack = b.redoStack) (h8 : a.clipboard = b.clipboard)
    (h9 : a.handledPaste = b.handledPaste) : a = b := by
  cases a
  cases b
  simp_all

theorem cursor_ext {a b : Cursor} (h1 : a.start = b.start) (h2 : a.stop = b.stop)
    (hj : junkOf a = junkOf b) : a = b := by
  cases a
  cases b
  simp_all [junkOf]

theorem bufInsert_doc (st : EditorState) (o : Nat) (t : List Char) :
    (bufInsert st o t).doc = docIns st.doc o t := rfl

theorem bufDelete_doc (st : EditorState) (a b : Nat) :
    (bufDelete st a b).doc = docDel st.doc a b := rfl

theorem applyUndoA_doc (st : EditorState) (a : UAction) :
    (applyUndoA st a).doc = docUndoA st.doc a := by
  cases a <;> rfl

theorem applyRedoA_doc (st : EditorState) (a : UAction) :
    (applyRedoA st a).doc = docRedoA st.doc a := by
  cases a <;> rfl

theorem carried_refl (s : EditorState) : Carried s s :=
  ⟨rfl, rfl, rfl, rfl, rfl, rfl, rfl⟩

theorem carried_trans {s1 s2 s3 : EditorState} (h1 : Carried s1 s2) (h2 : Carried s2 s3) :
    Carried s1 s3 := by
  obtain ⟨a1, a2, a3, a4, a5, a6, a7⟩ := h1
  obtain ⟨b1, b2, b3, b4, b5, b6, b7⟩ := h2
  exact ⟨b1.trans a1, b2.trans a2, b3.trans a3, b4.trans a4, b5.trans a5,
    b6.trans a6, b7.trans a7⟩

theorem carried_bufInsert (st : EditorState) (o : Nat) (t : List Char) :
    Carried st (bufInsert st o t) := by
  refine ⟨rfl, rfl, rfl, rfl, rfl, ?_, by simp [bufInsert]⟩
  show (st.cursors.map _).map junkOf = st.cursors.map junkOf
  rw [List.map_map]
  rfl

theorem carried_bufDelete (st : EditorState) (a b : Nat) :
    Carried st (bufDelete st a b) := by
  refine ⟨rfl, rfl, rfl, rfl, rfl, ?_, by simp [bufDelete]⟩
  show (st.cursors.map _).map junkOf = st.cursors.map junkOf
  rw [List.map_map]
  rfl

theorem carried_applyUndoA (st : EditorState) (a : UAction) :
    Carried st (applyUndoA st a) := by
  cases a
  · exact carried_bufDelete _ _ _
  · exact carried_bufInsert _ _ _

theorem carried_applyRedoA (st : EditorState) (a : UAction) :
    Carried st (applyRedoA st a) := by
  cases a
  · exact carried_bufInsert _ _ _
  · exact carried_bufDelete _ _ _

theorem carried_foldl_applyUndoA (l : List UAction) :
    ∀ st : EditorState, Carried st (l.foldl applyUndoA st) := by
  induction l with
  | nil => intro st; exact carried_refl st
  | cons a as ih =>
    intro st
    exact carried_trans (carried_applyUndoA st a) (ih (applyUndoA st a))

theorem carried_foldl_applyRedoA (l : List UAction) :
    ∀ st : EditorState, Carried st (l.foldl applyRedoA st) := by
  induction l with
  | nil => intro st; exact carried_refl st
  | cons a as ih =>
    intro st
    exact carried_trans (carried_applyRedoA st a) (ih (applyRedoA st a))

theorem foldl_applyUndoA_doc (l : List UAction) :
    ∀ st : EditorState, (l.foldl applyUndoA st).doc = l.foldl docUndoA st.doc := by
  induction l with
  | nil => intro st; rfl
  | cons a as ih =>
    intro st
    simp only [List.foldl_cons, ih, applyUndoA_doc]

theorem foldl_applyRedoA_doc (l : List UAction) :
    ∀ st : EditorState, (l.foldl applyRedoA st).doc = l.foldl docRedoA st.doc := by
  induction l with
  | nil => intro st; rfl
  | cons a as ih =>
    intro st
    simp only [List.foldl_cons, ih, applyRedoA_doc]

/-! ## Snapshot restore lemmas -/

theorem restoreCursors_eq_withOffsets (len : Nat) :
    ∀ (cs : List Cursor) (ps : List (Nat × Nat)),
      (∀ p ∈ ps, p.1 ≤ len ∧ p.2 ≤ len) →
      restoreCursors len cs ps = withOffsets cs ps := by
  intro cs
  induction cs with
  | nil =>
    intro ps hb
    cases ps <;> rfl
  | cons c cs ih =>
    intro ps hb
    cases ps with
    | nil => rfl
    | cons p ps =>
      have h1 := hb p (by simp)
      simp only [restoreCursors, withOffsets, Nat.min_eq_left h1.1, Nat.min_eq_left h1.2]
      rw [ih ps (fun q hq => hb q (by simp [hq]))]

theorem withOffsets_self : ∀ cs : List Cursor, withOffsets cs (cs.map offsOf) = cs := by
  intro cs
  induction cs with
  | nil => rfl
  | cons c cs ih => simp [withOffsets, offsOf, ih]

theorem withOffsets_length : ∀ (cs : List Cursor) (ps : List (Nat × Nat)),
    (withOffsets cs ps).length = cs.length := by
  intro cs
  induction cs with
  | nil => intro ps; cases ps <;> rfl
  | cons c cs ih =>
    intro ps
    cases ps with
    | nil => rfl
    | cons p ps => simp [withOffsets, ih]

theorem withOffsets_junk : ∀ (cs : List Cursor) (ps : List (Nat × Nat)),
    (withOffsets cs ps).map junkOf = cs.map junkOf := by
  intro cs
  induction cs with
  | nil => intro ps; cases ps <;> rfl
  | cons c cs ih =>
    intro ps
    cases ps with
    | nil => rfl
    | cons p ps =>
      simp only [withOffsets, List.map_cons, ih]
      rfl

theorem withOffsets_of_junkEq : ∀ (cs1 cs2 : List Cursor) (ps : List (Nat × Nat)),
    cs1.map junkOf = cs2.map junkOf → ps.length = cs1.length →
    withOffsets cs1 ps = withOffsets cs2 ps := by
  intro cs1
  induction cs1 with
  | nil =>
    intro cs2 ps hj hl
    cases cs2 with
    | nil => rfl
    | cons c cs2 => simp at hj
  | cons c1 cs1 ih =>
    intro cs2 ps hj hl
    cases cs2 with
    | nil => simp at hj
    | cons c2 cs2 =>
      cases ps with
      | nil => simp at hl
      | cons p ps =>
        simp only [List.map_cons, List.cons.injEq] at hj
        simp only [List.length_cons] at hl
        simp only [withOffsets, List.cons.injEq]
        exact ⟨cursor_ext rfl rfl hj.1, ih cs2 ps hj.2 (by omega)⟩

theorem map_offs_withOffsets : ∀ (cs : List Cursor) (ps : List (Nat × Nat)),
    ps.length = cs.length → (withOffsets cs ps).map offsOf = ps := by
  intro cs
  induction cs with
  | nil =>
    intro ps hl
    cases ps with
    | nil => rfl
    | cons p ps => simp at hl
  | cons c cs ih =>
    intro ps hl
    cases ps with
    | nil => simp at hl
    | cons p ps =>
      simp only [List.length_cons] at hl
      simp only [withOffsets, List.map_cons, List.cons.injEq]
      refine ⟨?_, ih ps (by omega)⟩
      simp [offsOf]

/-! ## Wellformedness preservation -/

theorem markInsAdj_le {m L o n : Nat} (hm : m ≤ L) (ho : o ≤ L) (g : Bool) :
    markInsAdj o n g m ≤ L + n := by
  unfold markInsAdj
  split
  · omega
  · split <;> omega

theorem markDelAdj_le {m L a b : Nat} (hm : m ≤ L) (hab : a ≤ b) (hb : b ≤ L) :
    markDelAdj a b m ≤ L - (b - a) := by
  unfold markDelAdj
  split
  · omega
  · split <;> omega

theorem wf_bufInsert {st : EditorState} (o : Nat) (t : List Char) (hwf : Wf st) :
    Wf (bufInsert st o t) := by
  obtain ⟨h1, h2, h3⟩ := hwf
  have hm : min o st.doc.length ≤ st.doc.length := Nat.min_le_right _ _
  have hl : (bufInsert st o t).doc.length = st.doc.length + t.length := by
    simpa [bufInsert] using length_insertAt st.doc (min o st.doc.length) t hm
  refine ⟨?_, ?_, ?_⟩
  · rw [hl]
    exact markInsAdj_le h1 hm false
  · rw [hl]
    exact markInsAdj_le h2 hm false
  · intro c hc
    rw [hl]
    simp only [bufInsert, List.mem_map] at hc
    obtain ⟨c0, hc0, rfl⟩ := hc
    obtain ⟨hs, he⟩ := h3 c0 hc0
    exact ⟨markInsAdj_le hs hm _, markInsAdj_le he hm false⟩

theorem wf_bufDelete {st : EditorState} (a b : Nat) (hwf : Wf st) :
    Wf (bufDelete st a b) := by
  obtain ⟨h1, h2, h3⟩ := hwf
  have hxy : min (min a b) st.doc.length ≤ min (max a b) st.doc.length := by omega
  have hyl : min (max a b) st.doc.length ≤ st.doc.length := by omega
  have hl : (bufDelete st a b).doc.length
      = st.doc.length - (min (max a b) st.doc.length - min (min a b) st.doc.length) := by
    simpa [bufDelete] using length_deleteRange st.doc _ _ hxy hyl
  refine ⟨?_, ?_, ?_⟩
  · rw [hl]
    exact markDelAdj_le h1 hxy hyl
  · rw [hl]
    exact markDelAdj_le h2 hxy hyl
  · intro c hc
    rw [hl]
    simp only [bufDelete, List.mem_map] at hc
    obtain ⟨c0, hc0, rfl⟩ := hc
    obtain ⟨hs, he⟩ := h3 c0 hc0
    exact ⟨markDelAdj_le hs hxy hyl, markDelAdj_le he hxy hyl⟩

theorem mem_of_getElemQ {l : List Cursor} {i : Nat} {c : Cursor}
    (h : l[i]? = some c) : c ∈ l := by
  rcases List.getElem?_eq_some.1 h with ⟨hi, rfl⟩
  exact List.getElem_mem hi

theorem wf_setGrav {st : EditorState} (i : Nat) (g : Bool) (hwf : Wf st) :
    Wf (setGrav st i g) := by
  obtain ⟨h1, h2, h3⟩ := hwf
  unfold setGrav
  cases hg : st.cursors[i]? with
  | none => exact ⟨h1, h2, h3⟩
  | some c =>
    refine ⟨h1, h2, ?_⟩
    intro c2 hc2
    rcases List.mem_or_eq_of_mem_set hc2 with h | h
    · exact h3 c2 h
    · subst h
      exact h3 c (mem_of_getElemQ hg)

/-! ## OpOK: one recorded editing step -/

theorem opOK_id (st : EditorState) : OpOK st st [] :=
  ⟨TraceOK.nil st.doc, rfl, rfl, rfl, fun h => h⟩

theorem opOK_comp {st st1 st2 : EditorState} {as1 as2 : List UAction}
    (h1 : OpOK st st1 as1) (h2 : OpOK st1 st2 as2) : OpOK st st2 (as1 ++ as2) := by
  obtain ⟨t1, l1, u1, r1, w1⟩ := h1
  obtain ⟨t2, l2, u2, r2, w2⟩ := h2
  exact ⟨traceOK_append t1 t2, l2.trans l1, u2.trans u1, r2.trans r1, fun h => w2 (w1 h)⟩

theorem opOK_recIns (st : EditorState) (o : Nat) (t : List Char) :
    OpOK st (recIns st o t).1 [(recIns st o t).2] := by
  refine ⟨traceOK_single (stepOK_recIns st o t), ?_, rfl, rfl, wf_bufInsert o t⟩
  simp [recIns, bufInsert]

theorem opOK_recDel (st : EditorState) (a b : Nat) :
    OpOK st (recDel st a b).1 [(recDel st a b).2] := by
  refine ⟨traceOK_single (stepOK_recDel st a b), ?_, rfl, rfl, wf_bufDelete a b⟩
  simp [recDel, bufDelete]

theorem setGrav_doc (st : EditorState) (i : Nat) (g : Bool) :
    (setGrav st i g).doc = st.doc := by
  unfold setGrav
  cases st.cursors[i]? <;> rfl

theorem setGrav_stacks (st : EditorState) (i : Nat) (g : Bool) :
    (setGrav st i g).undoStack = st.undoStack ∧ (setGrav st i g).redoStack = st.redoStack := by
  unfold setGrav
  cases st.cursors[i]? <;> exact ⟨rfl, rfl⟩

theorem opOK_setGrav (st : EditorState) (i : Nat) (g : Bool) :
    OpOK st (setGrav st i g) [] := by
  refine ⟨?_, ?_, (setGrav_stacks st i g).1, (setGrav_stacks st i g).2, wf_setGrav i g⟩
  · rw [setGrav_doc]
    exact TraceOK.nil st.doc
  · unfold setGrav
    cases st.cursors[i]? <;> simp

theorem opOK_cursorInsertIdx (st : EditorState) (i : Nat) (delta : Int) (t : List Char) :
    OpOK st (cursorInsertIdx st i delta t).1 (cursorInsertIdx st i delta t).2 := by
  unfold cursorInsertIdx
  cases hg : st.cursors[i]? with
  | none => exact opOK_id st
  | some c =>
    have h1 := opOK_setGrav st i false
    have h2 := opOK_recIns (setGrav st i false)
      (clampOff st.doc.length ((c.start : Int) + delta)) t
    have h3 := opOK_setGrav
      (recIns (setGrav st i false) (clampOff st.doc.length ((c.start : Int) + delta)) t).1
      i true
    have := opOK_comp (opOK_comp h1 h2) h3
    simpa using this

theorem opOK_cursorDeleteIdx (st : EditorState) (i : Nat) (sd ed : Int) :
    OpOK st (cursorDeleteIdx st i sd ed).1 (cursorDeleteIdx st i sd ed).2 := by
  unfold cursorDeleteIdx
  cases hg : st.cursors[i]? with
  | none => exact opOK_id st
  | some c => exact opOK_recDel st _ _

theorem opOK_runIns (delta : Int) (eff : Cursor → List Char) :
    ∀ (idxs : List Nat) (st : EditorState),
      OpOK st (runIns delta eff idxs st).1 (runIns delta eff idxs st).2 := by
  intro idxs
  induction idxs with
  | nil => intro st; exact opOK_id st
  | cons i rest ih =>
    intro st
    simp only [runIns]
    exact opOK_comp (opOK_cursorInsertIdx st i delta _) (ih _)

theorem opOK_runDel (sd ed : Int) :
    ∀ (idxs : List Nat) (st : EditorState),
      OpOK st (runDel sd ed idxs st).1 (runDel sd ed idxs st).2 := by
  intro idxs
  induction idxs with
  | nil => intro st; exact opOK_id st
  | cons i rest ih =>
    intro st
    simp only [runDel]
    exact opOK_comp (opOK_cursorDeleteIdx st i sd ed) (ih _)

theorem opOK_hpReset {st st2 : EditorState} {as : List UAction}
    (h : OpOK st st2 as) : OpOK st { st2 with handledPaste := false } as := by
  obtain ⟨t, l, u, r, w⟩ := h
  refine ⟨t, l, u, r, fun hw => ?_⟩
  have := w hw
  obtain ⟨h1, h2, h3⟩ := this
  exact ⟨h1, h2, h3⟩

theorem opOK_mcInsert (st : EditorState) (delta : Int) (t : List Char) :
    OpOK st (mcInsert st delta t).1 (mcInsert st delta t).2 := by
  unfold mcInsert
  split
  · exact opOK_hpReset (opOK_runIns delta _ _ st)
  · exact opOK_hpReset (opOK_runIns delta _ _ st)

theorem opOK_mcDelete (st : EditorState) (sd ed : Int) :
    OpOK st (mcDelete st sd ed).1 (mcDelete st sd ed).2 :=
  opOK_runDel sd ed _ st

theorem opOK_mtClear {st st2 : EditorState} {as : List UAction}
    (h : OpOK st st2 as) : OpOK st { st2 with matchTags := [] } as := by
  obtain ⟨t, l, u, r, w⟩ := h
  refine ⟨t, l, u, r, fun hw => ?_⟩
  obtain ⟨h1, h2, h3⟩ := w hw
  exact ⟨h1, h2, h3⟩

theorem opOK_corePhase1 (st : EditorState) (s e : Nat) :
    OpOK st (corePhase1 st s e).1 (corePhase1 st s e).2 := by
  unfold corePhase1
  split
  · exact opOK_recDel st s e
  · exact opOK_id st

theorem opOK_corePhase2 (st : EditorState) (s : Nat) (T : List Char) :
    OpOK st (corePhase2 st s T).1 (corePhase2 st s T).2 := by
  unfold corePhase2
  split
  · exact opOK_recIns st s T
  · exact opOK_id st

theorem opOK_replayPhase (st : EditorState) (b : Bool) (T : List Char) :
    OpOK st (replayPhase st b T).1 (replayPhase st b T).2 := by
  have ha : OpOK st (if b then mcDelete st 0 0 else (st, [])).1
      (if b then mcDelete st 0 0 else (st, [])).2 := by
    split
    · exact opOK_mcDelete st 0 0
    · exact opOK_id st
  have hb : OpOK (if b then mcDelete st 0 0 else (st, [])).1
      (if T ≠ [] then mcInsert (if b then mcDelete st 0 0 else (st, [])).1 0 T
        else ((if b then mcDelete st 0 0 else (st, [])).1, [])).1
      (if T ≠ [] then mcInsert (if b then mcDelete st 0 0 else (st, [])).1 0 T
        else ((if b then mcDelete st 0 0 else (st, [])).1, [])).2 := by
    by_cases hT : T ≠ []
    · simp only [if_pos hT]
      exact opOK_mcInsert _ 0 T
    · simp only [if_neg hT]
      exact opOK_id _
  exact opOK_comp ha hb

theorem opOK_clearPhase {st st2 : EditorState} {as : List UAction} (b : Bool)
    (h : OpOK st st2 as) : OpOK st (clearPhase st2 b) as := by
  unfold clearPhase
  split
  · exact opOK_mtClear h
  · exact h

theorem opOK_typeTextCore (st : EditorState) (T : List Char) :
    OpOK st (typeTextCore st T).1 (typeTextCore st T).2 := by
  have h1 := opOK_corePhase1 st (min st.insOff st.selOff) (max st.insOff st.selOff)
  have h2 := opOK_corePhase2
    (corePhase1 st (min st.insOff st.selOff) (max st.insOff st.selOff)).1
    (min st.insOff st.selOff) T
  have h3 : OpOK (corePhase2
        (corePhase1 st (min st.insOff st.selOff) (max st.insOff st.selOff)).1
        (min st.insOff st.selOff) T).1
      (if st.cursors ≠ [] then
        replayPhase (corePhase2
          (corePhase1 st (min st.insOff st.selOff) (max st.insOff st.selOff)).1
          (min st.insOff st.selOff) T).1
          (decide (min st.insOff st.selOff ≠ max st.insOff st.selOff)) T
       else ((corePhase2
          (corePhase1 st (min st.insOff st.selOff) (max st.insOff st.selOff)).1
          (min st.insOff st.selOff) T).1, [])).1
      (if st.cursors ≠ [] then
        replayPhase (corePhase2
          (corePhase1 st (min st.insOff st.selOff) (max st.insOff st.selOff)).1
          (min st.insOff st.selOff) T).1
          (decide (min st.insOff st.selOff ≠ max st.insOff st.selOff)) T
       else ((corePhase2
          (corePhase1 st (min st.insOff st.selOff) (max st.insOff st.selOff)).1
          (min st.insOff st.selOff) T).1, [])).2 := by
    split
    · exact opOK_replayPhase _ _ T
    · exact opOK_id _
  exact opOK_clearPhase _ (opOK_comp (opOK_comp h1 h2) h3)

/-! ## The shape of one pushed transaction -/

theorem typeTextCore_acts_ne (st : EditorState) (T : List Char) (hT : T ≠ []) :
    (typeTextCore st T).2 ≠ [] := by
  unfold typeTextCore corePhase2
  simp [hT]

theorem typeText_push (st : EditorState) (T : List Char) (hT : T ≠ []) :
    typeText st T = { (typeTextCore st T).1 with
      undoStack := txnGroup st T :: (typeTextCore st T).1.undoStack,
      redoStack := [] } := by
  unfold typeText
  simp [typeTextCore_acts_ne st T hT]

theorem typeText_doc (st : EditorState) (T : List Char) :
    (typeText st T).doc = (typeTextCore st T).1.doc := by
  by_cases h : (typeTextCore st T).2 = [] <;> simp [typeText, h]

theorem typeText_insOff (st : EditorState) (T : List Char) :
    (typeText st T).insOff = (typeTextCore st T).1.insOff := by
  by_cases h : (typeTextCore st T).2 = [] <;> simp [typeText, h]

theorem typeText_selOff (st : EditorState) (T : List Char) :
    (typeText st T).selOff = (typeTextCore st T).1.selOff := by
  by_cases h : (typeTextCore st T).2 = [] <;> simp [typeText, h]

theorem typeText_cursors (st : EditorState) (T : List Char) :
    (typeText st T).cursors = (typeTextCore st T).1.cursors := by
  by_cases h : (typeTextCore st T).2 = [] <;> simp [typeText, h]

theorem typeText_matchTags (st : EditorState) (T : List Char) :
    (typeText st T).matchTags = (typeTextCore st T).1.matchTags := by
  by_cases h : (typeTextCore st T).2 = [] <;> simp [typeText, h]

theorem typeText_clipboard (st : EditorState) (T : List Char) :
    (typeText st T).clipboard = (typeTextCore st T).1.clipboard := by
  by_cases h : (typeTextCore st T).2 = [] <;> simp [typeText, h]

theorem typeText_handledPaste (st : EditorState) (T : List Char) :
    (typeText st T).handledPaste = (typeTextCore st T).1.handledPaste := by
  by_cases h : (typeTextCore st T).2 = [] <;> simp [typeText, h]

theorem typeText_undoStack (st : EditorState) (T : List Char) (hT : T ≠ []) :
    (typeText st T).undoStack = txnGroup st T :: st.undoStack := by
  rw [typeText_push st T hT]
  show txnGroup st T :: (typeTextCore st T).1.undoStack = _
  rw [(opOK_typeTextCore st T).2.2.1]

theorem typeText_redoStack (st : EditorState) (T : List Char) (hT : T ≠ []) :
    (typeText st T).redoStack = [] := by
  rw [typeText_push st T hT]

theorem typeText_cursors_length (st : EditorState) (T : List Char) :
    (typeText st T).cursors.length = st.cursors.length := by
  rw [typeText_cursors]
  exact (opOK_typeTextCore st T).2.1

theorem typeText_cursors_ne (st : EditorState) (T : List Char) (hc : st.cursors ≠ []) :
    (typeText st T).cursors ≠ [] := by
  have h := typeText_cursors_length st T
  intro he
  rw [he] at h
  simp at h
  exact hc (List.eq_nil_of_length_eq_zero h.symm)

theorem wf_typeText {st : EditorState} (T : List Char) (hwf : Wf st) :
    Wf (typeText st T) := by
  have h := (opOK_typeTextCore st T).2.2.2.2 hwf
  obtain ⟨h1, h2, h3⟩ := h
  refine ⟨?_, ?_, ?_⟩
  · rw [typeText_insOff, typeText_doc]
    exact h1
  · rw [typeText_selOff, typeText_doc]
    exact h2
  · intro c hc
    rw [typeText_doc]
    rw [typeText_cursors] at hc
    exact h3 c hc

theorem traceOK_typeText (st : EditorState) (T : List Char) :
    TraceOK st.doc (typeTextCore st T).2 (typeText st T).doc := by
  rw [typeText_doc]
  exact (opOK_typeTextCore st T).1

theorem txnGroup_multi (st : EditorState) (T : List Char) (hc : st.cursors ≠ []) :
    txnGroup st T = .multi (typeTextCore st T).2 (st.insOff, st.selOff)
      (st.cursors.map offsOf)
      ((typeTextCore st T).1.insOff, (typeTextCore st T).1.selOff)
      ((typeTextCore st T).1.cursors.map offsOf) := by
  unfold txnGroup mkGroup
  simp [hc]

theorem applyTxns_cursors_length :
    ∀ (Ts : List (List Char)) (st : EditorState),
      (applyTxns st Ts).cursors.length = st.cursors.length := by
  intro Ts
  induction Ts with
  | nil => intro st; rfl
  | cons T rest ih =>
    intro st
    show (applyTxns (typeText st T) rest).cursors.length = _
    rw [ih, typeText_cursors_length]

/-! ## Popping one group -/

theorem umUndo_cons {st : EditorState} {g : Group} {rest : List Group}
    (h : st.undoStack = g :: rest) :
    umUndo st = { groupUndo { st with undoStack := rest } g with
      redoStack := g :: (groupUndo { st with undoStack := rest } g).redoStack } := by
  simp only [umUndo, h]

theorem umRedo_cons {st : EditorState} {g : Group} {rest : List Group}
    (h : st.redoStack = g :: rest) :
    umRedo st = { groupRedo { st with redoStack := rest } g with
      undoStack := g :: (groupRedo { st with redoStack := rest } g).undoStack } := by
  simp only [umRedo, h]

theorem unwound_self (st : EditorState) : unwound st st [] = st := by
  apply estate_ext <;> simp [unwound, withOffsets_self]

/-! ## Undoing / redoing one MultiCursorUndoAction -/

theorem umUndo_multi_step (X : EditorState) (acts : List UAction) (pb : Nat × Nat)
    (sb : List (Nat × Nat)) (pa : Nat × Nat) (sa : List (Nat × Nat)) (rest : List Group)
    (hstack : X.undoStack = .multi acts pb sb pa sa :: rest) (d0 : List Char)
    (htrace : TraceOK d0 acts X.doc)
    (hb1 : pb.1 ≤ d0.length) (hb2 : pb.2 ≤ d0.length)
    (hsb : ∀ p ∈ sb, p.1 ≤ d0.length ∧ p.2 ≤ d0.length)
    (hsblen : sb.length = X.cursors.length) :
    umUndo X = { X with
      doc := d0, insOff := pb.1, selOff := pb.2,
      cursors := withOffsets X.cursors sb,
      undoStack := rest,
      redoStack := Group.multi acts pb sb pa sa :: X.redoStack } := by
  rw [umUndo_cons hstack]
  have hgu : groupUndo { X with undoStack := rest } (.multi acts pb sb pa sa)
      = restoreMarks (acts.reverse.foldl applyUndoA { X with undoStack := rest }) pb sb := rfl
  rw [hgu]
  obtain ⟨cu, cr, cm, ccl, chp, cj, clen⟩ :=
    carried_foldl_applyUndoA acts.reverse { X with undoStack := rest }
  have hdocZ : (acts.reverse.foldl applyUndoA { X with undoStack := rest }).doc = d0 := by
    rw [foldl_applyUndoA_doc]
    exact traceOK_undo htrace
  refine estate_ext ?_ ?_ ?_ ?_ ?_ ?_ ?_ ?_ ?_
  · exact hdocZ
  · show min pb.1 (acts.reverse.foldl applyUndoA { X with undoStack := rest }).doc.length = pb.1
    rw [hdocZ]
    exact Nat.min_eq_left hb1
  · show min pb.2 (acts.reverse.foldl applyUndoA { X with undoStack := rest }).doc.length = pb.2
    rw [hdocZ]
    exact Nat.min_eq_left hb2
  · show restoreCursors (acts.reverse.foldl applyUndoA { X with undoStack := rest }).doc.length
        (acts.reverse.foldl applyUndoA { X with undoStack := rest }).cursors sb
      = withOffsets X.cursors sb
    rw [show (acts.reverse.foldl applyUndoA { X with undoStack := rest }).doc.length
        = d0.length from by rw [hdocZ]]
    rw [restoreCursors_eq_withOffsets d0.length _ sb hsb]
    exact withOffsets_of_junkEq _ X.cursors sb cj (by rw [hsblen, clen])
  · exact cm
  · exact cu
  · show Group.multi acts pb sb pa sa
        :: (acts.reverse.foldl applyUndoA { X with undoStack := rest }).redoStack
      = Group.multi acts pb sb pa sa :: X.redoStack
    rw [cr]
  · exact ccl
  · exact chp

theorem umRedo_multi_step (X : EditorState) (acts : List UAction) (pb : Nat × Nat)
    (sb : List (Nat × Nat)) (pa : Nat × Nat) (sa : List (Nat × Nat)) (rest : List Group)
    (hstack : X.redoStack = .multi acts pb sb pa sa :: rest) (d1 : List Char)
    (htrace : TraceOK X.doc acts d1)
    (hb1 : pa.1 ≤ d1.length) (hb2 : pa.2 ≤ d1.length)
    (hsa : ∀ p ∈ sa, p.1 ≤ d1.length ∧ p.2 ≤ d1.length)
    (hsalen : sa.length = X.cursors.length) :
    umRedo X = { X with
      doc := d1, insOff := pa.1, selOff := pa.2,
      cursors := withOffsets X.cursors sa,
      undoStack := Group.multi acts pb sb pa sa :: X.undoStack,
      redoStack := rest } := by
  rw [umRedo_cons hstack]
  have hgu : groupRedo { X with redoStack := rest } (.multi acts pb sb pa sa)
      = restoreMarks (acts.foldl applyRedoA { X with redoStack := rest }) pa sa := rfl
  rw [hgu]
  obtain ⟨cu, cr, cm, ccl, chp, cj, clen⟩ :=
    carried_foldl_applyRedoA acts { X with redoStack := rest }
  have hdocZ : (acts.foldl applyRedoA { X with redoStack := rest }).doc = d1 := by
    rw [foldl_applyRedoA_doc]
    exact traceOK_redo htrace
  refine estate_ext ?_ ?_ ?_ ?_ ?_ ?_ ?_ ?_ ?_
  · exact hdocZ
  · show min pa.1 (acts.foldl applyRedoA { X with redoStack := rest }).doc.length = pa.1
    rw [hdocZ]
    exact Nat.min_eq_left hb1
  · show min pa.2 (acts.foldl applyRedoA { X with redoStack := rest }).doc.length = pa.2
    rw [hdocZ]
    exact Nat.min_eq_left hb2
  · show restoreCursors (acts.foldl applyRedoA { X with redoStack := rest }).doc.length
        (acts.foldl applyRedoA { X with redoStack := rest }).cursors sa
      = withOffsets X.cursors sa
    rw [show (acts.foldl applyRedoA { X with redoStack := rest }).doc.length
        = d1.length from by rw [hdocZ]]
    rw [restoreCursors_eq_withOffsets d1.length _ sa hsa]
    exact withOffsets_of_junkEq _ X.cursors sa cj (by rw [hsalen, clen])
  · exact cm
  · show Group.multi acts pb sb pa sa
        :: (acts.foldl applyRedoA { X with redoStack := rest }).undoStack
      = Group.multi acts pb sb pa sa :: X.undoStack
    rw [cu]
  · exact cr
  · exact ccl
  · exact chp

/-! ## Unwinding a run of transactions -/

theorem umUndo_unwound_step (st : EditorState) (T : List Char)
    (hwf : Wf st) (hc : st.cursors ≠ []) (hT : T ≠ [])
    (fin : EditorState) (gs : List Group)
    (hlen : fin.cursors.length = st.cursors.length) :
    umUndo (unwound (typeText st T) fin gs) = unwound st fin (txnGroup st T :: gs) := by
  have hstack : (unwound (typeText st T) fin gs).undoStack
      = Group.multi (typeTextCore st T).2 (st.insOff, st.selOff) (st.cursors.map offsOf)
          ((typeTextCore st T).1.insOff, (typeTextCore st T).1.selOff)
          ((typeTextCore st T).1.cursors.map offsOf) :: st.undoStack := by
    show (typeText st T).undoStack = _
    rw [typeText_undoStack st T hT, txnGroup_multi st T hc]
  have htrace : TraceOK st.doc (typeTextCore st T).2 (unwound (typeText st T) fin gs).doc :=
    traceOK_typeText st T
  have hsb : ∀ p ∈ st.cursors.map offsOf,
      p.1 ≤ st.doc.length ∧ p.2 ≤ st.doc.length := by
    intro p hp
    simp only [List.mem_map] at hp
    obtain ⟨c, hcm, rfl⟩ := hp
    exact ⟨(hwf.2.2 c hcm).1, (hwf.2.2 c hcm).2⟩
  have hsblen : (st.cursors.map offsOf).length
      = (unwound (typeText st T) fin gs).cursors.length := by
    show _ = (withOffsets fin.cursors ((typeText st T).cursors.map offsOf)).length
    rw [withOffsets_length, List.length_map]
    exact hlen.symm
  rw [umUndo_multi_step _ _ _ _ _ _ _ hstack st.doc htrace hwf.1 hwf.2.1 hsb hsblen]
  refine estate_ext rfl rfl rfl ?_ rfl rfl ?_ rfl rfl
  · show withOffsets (withOffsets fin.cursors ((typeText st T).cursors.map offsOf))
        (st.cursors.map offsOf) = withOffsets fin.cursors (st.cursors.map offsOf)
    refine withOffsets_of_junkEq _ _ _ (withOffsets_junk _ _) ?_
    rw [List.length_map, withOffsets_length, hlen]
  · show Group.multi (typeTextCore st T).2 (st.insOff, st.selOff) (st.cursors.map offsOf)
          ((typeTextCore st T).1.insOff, (typeTextCore st T).1.selOff)
          ((typeTextCore st T).1.cursors.map offsOf) :: (gs ++ fin.redoStack)
      = (txnGroup st T :: gs) ++ fin.redoStack
    rw [txnGroup_multi st T hc]
    rfl

theorem umRedo_unwound_step (st : EditorState) (T : List Char)
    (hwf : Wf st) (hc : st.cursors ≠ []) (hT : T ≠ [])
    (fin : EditorState) (gs : List Group)
    (hlen : fin.cursors.length = st.cursors.length) :
    umRedo (unwound st fin (txnGroup st T :: gs)) = unwound (typeText st T) fin gs := by
  have hwfc : Wf (typeTextCore st T).1 := (opOK_typeTextCore st T).2.2.2.2 hwf
  have hstack : (unwound st fin (txnGroup st T :: gs)).redoStack
      = Group.multi (typeTextCore st T).2 (st.insOff, st.selOff) (st.cursors.map offsOf)
          ((typeTextCore st T).1.insOff, (typeTextCore st T).1.selOff)
          ((typeTextCore st T).1.cursors.map offsOf) :: (gs ++ fin.redoStack) := by
    show (txnGroup st T :: gs) ++ fin.redoStack = _
    rw [txnGroup_multi st T hc]
    rfl
  have htrace : TraceOK (unwound st fin (txnGroup st T :: gs)).doc
      (typeTextCore st T).2 (typeTextCore st T).1.doc :=
    (opOK_typeTextCore st T).1
  have hsa : ∀ p ∈ (typeTextCore st T).1.cursors.map offsOf,
      p.1 ≤ (typeTextCore st T).1.doc.length ∧ p.2 ≤ (typeTextCore st T).1.doc.length := by
    intro p hp
    simp only [List.mem_map] at hp
    obtain ⟨c, hcm, rfl⟩ := hp
    exact ⟨(hwfc.2.2 c hcm).1, (hwfc.2.2 c hcm).2⟩
  have hsalen : ((typeTextCore st T).1.cursors.map offsOf).length
      = (unwound st fin (txnGroup st T :: gs)).cursors.length := by
    show _ = (withOffsets fin.cursors (st.cursors.map offsOf)).length
    rw [withOffsets_length, List.length_map, (opOK_typeTextCore st T).2.1, hlen]
  rw [umRedo_multi_step _ _ _ _ _ _ _ hstack (typeTextCore st T).1.doc htrace
    hwfc.1 hwfc.2.1 hsa hsalen]
  refine estate_ext ?_ ?_ ?_ ?_ rfl ?_ rfl rfl rfl
  · exact (typeText_doc st T).symm
  · exact (typeText_insOff st T).symm
  · exact (typeText_selOff st T).symm
  · show withOffsets (withOffsets fin.cursors (st.cursors.map offsOf))
        ((typeTextCore st T).1.cursors.map offsOf)
      = withOffsets fin.cursors ((typeText st T).cursors.map offsOf)
    rw [typeText_cursors]
    refine withOffsets_of_junkEq _ _ _ (withOffsets_junk _ _) ?_
    rw [List.length_map, withOffsets_length, (opOK_typeTextCore st T).2.1, hlen]
  · show Group.multi (typeTextCore st T).2 (st.insOff, st.selOff) (st.cursors.map offsOf)
          ((typeTextCore st T).1.insOff, (typeTextCore st T).1.selOff)
          ((typeTextCore st T).1.cursors.map offsOf) :: st.undoStack
      = (typeText st T).undoStack
    rw [typeText_undoStack st T hT, txnGroup_multi st T hc]

theorem undoN_unwound :
    ∀ (Ts : List (List Char)) (st : EditorState),
      Wf st → st.cursors ≠ [] → (∀ T ∈ Ts, T ≠ []) →
      umUndo^[Ts.length] (applyTxns st Ts)
        = unwound st (applyTxns st Ts) (txnGroups st Ts) := by
  intro Ts
  induction Ts with
  | nil =>
    intro st hwf hc hT
    show umUndo^[0] st = unwound st st []
    rw [Function.iterate_zero, id_eq, unwound_self]
  | cons T rest ih =>
    intro st hwf hc hT
    have hTT : T ≠ [] := hT T (List.mem_cons_self T rest)
    have hrest : ∀ T2 ∈ rest, T2 ≠ [] := fun T2 h2 => hT T2 (List.mem_cons_of_mem T h2)
    have hwf1 : Wf (typeText st T) := wf_typeText T hwf
    have hc1 : (typeText st T).cursors ≠ [] := typeText_cursors_ne st T hc
    show umUndo^[rest.length + 1] (applyTxns (typeText st T) rest)
        = unwound st (applyTxns (typeText st T) rest)
            (txnGroup st T :: txnGroups (typeText st T) rest)
    rw [Function.iterate_succ_apply', ih (typeText st T) hwf1 hc1 hrest]
    exact umUndo_unwound_step st T hwf hc hTT _ _
      (by rw [applyTxns_cursors_length, typeText_cursors_length])

theorem redoN_unwound :
    ∀ (Ts : List (List Char)) (st : EditorState),
      Wf st → st.cursors ≠ [] → (∀ T ∈ Ts, T ≠ []) →
      umRedo^[Ts.length]
          (unwound st (applyTxns st Ts) (txnGroups st Ts))
        = applyTxns st Ts := by
  intro Ts
  induction Ts with
  | nil =>
    intro st hwf hc hT
    show umRedo^[0] (unwound st st []) = st
    rw [Function.iterate_zero, id_eq, unwound_self]
  | cons T rest ih =>
    intro st hwf hc hT
    have hTT : T ≠ [] := hT T (List.mem_cons_self T rest)
    have hrest : ∀ T2 ∈ rest, T2 ≠ [] := fun T2 h2 => hT T2 (List.mem_cons_of_mem T h2)
    have hwf1 : Wf (typeText st T) := wf_typeText T hwf
    have hc1 : (typeText st T).cursors ≠ [] := typeText_cursors_ne st T hc
    show umRedo^[rest.length + 1]
        (unwound st (applyTxns (typeText st T) rest)
          (txnGroup st T :: txnGroups (typeText st T) rest))
      = applyTxns (typeText st T) rest
    rw [Function.iterate_succ_apply]
    rw [umRedo_unwound_step st T hwf hc hTT _ _
      (by rw [applyTxns_cursors_length, typeText_cursors_length])]
    exact ih (typeText st T) hwf1 hc1 hrest

/-! ## Claim theorems -/

/-- C1: round-trip — from any wellformed document state with secondary
cursors at strictly increasing start offsets, one user-action transaction
that types text T followed by a single undo() restores the document
content, the primary caret/selection offsets and every live secondary
cursor range exactly to their pre-edit values. -/
theorem C1_typeText_undo_roundtrip (st : EditorState) (T : List Char)
    (hwf : Wf st) (hc : st.cursors ≠ []) (hT : T ≠ [])
    (_hinc : List.Chain' (fun a b => a < b) (st.cursors.map Cursor.start)) :
    (umUndo (typeText st T)).doc = st.doc ∧
    (umUndo (typeText st T)).insOff = st.insOff ∧
    (umUndo (typeText st T)).selOff = st.selOff ∧
    (umUndo (typeText st T)).cursors.map offsOf = st.cursors.map offsOf := by
  have h := undoN_unwound [T] st hwf hc (by
    intro T2 h2
    simp only [List.mem_singleton] at h2
    subst h2
    exact hT)
  have h1 : umUndo (typeText st T) = unwound st (typeText st T) [txnGroup st T] := by
    simpa [applyTxns, txnGroups] using h
  rw [h1]
  refine ⟨rfl, rfl, rfl, ?_⟩
  show (withOffsets (typeText st T).cursors (st.cursors.map offsOf)).map offsOf
      = st.cursors.map offsOf
  exact map_offs_withOffsets _ _ (by rw [List.length_map, typeText_cursors_length])

/-- Witness for C1 at a concrete wellformed state. -/
theorem C1_witness :
    (Wf smallState ∧ smallState.cursors ≠ [] ∧ (['Z'] : List Char) ≠ [] ∧
      List.Chain' (fun a b => a < b) (smallState.cursors.map Cursor.start)) ∧
    ((umUndo (typeText smallState ['Z'])).doc = smallState.doc ∧
     (umUndo (typeText smallState ['Z'])).insOff = smallState.insOff ∧
     (umUndo (typeText smallState ['Z'])).selOff = smallState.selOff ∧
     (umUndo (typeText smallState ['Z'])).cursors.map offsOf
       = smallState.cursors.map offsOf) :=
  ⟨⟨by decide, by decide, by decide, by simp [smallState, mkCursor]⟩,
   C1_typeText_undo_roundtrip smallState ['Z'] (by decide) (by decide) (by decide)
     (by simp [smallState, mkCursor])⟩

/-- C2: undo/redo symmetry — after any sequence of N typing transactions
from a wellformed multi-cursor state, undo() applied N times followed by
redo() applied N times returns the entire editor state (document, primary
selection, all secondary cursor offsets, stacks) to the state immediately
after transaction N. -/
theorem C2_undo_redo_symmetry (st : EditorState) (Ts : List (List Char))
    (hwf : Wf st) (hc : st.cursors ≠ []) (hTs : ∀ T ∈ Ts, T ≠ []) :
    umRedo^[Ts.length] (umUndo^[Ts.length] (applyTxns st Ts)) = applyTxns st Ts := by
  rw [undoN_unwound Ts st hwf hc hTs]
  exact redoN_unwound Ts st hwf hc hTs

/-- Witness for C2 with two concrete transactions. -/
theorem C2_witness :
    (Wf smallState ∧ smallState.cursors ≠ [] ∧
      (∀ T ∈ [['X'], ['Y']], T ≠ ([] : List Char))) ∧
    umRedo^[2] (umUndo^[2] (applyTxns smallState [['X'], ['Y']]))
      = applyTxns smallState [['X'], ['Y']] :=
  ⟨⟨by decide, by decide, by decide⟩,
   C2_undo_redo_symmetry smallState [['X'], ['Y']] (by decide) (by decide) (by decide)⟩

/-- The document effect of one transaction is the document of the
multi-cursor replay (the push and the highlight clearing do not touch the
document). -/
theorem clearPhase_doc (st : EditorState) (b : Bool) : (clearPhase st b).doc = st.doc := by
  unfold clearPhase
  split <;> rfl

/-- mc_insert outside a paste: plain descending replay of the literal
text. -/
theorem mcInsert_doc_noPaste (st : EditorState) (delta : Int) (t : List Char)
    (h : ¬(st.handledPaste = true ∧ t = st.clipboard)) :
    (mcInsert st delta t).1.doc
      = (runIns delta (fun _ => t) (sortedIdxDesc st.cursors) st).1.doc := by
  simp only [mcInsert]
  rw [if_neg h]

/-- One replay step of the mc_insert loop, on the resulting state. -/
theorem runIns_fst_cons (delta : Int) (eff : Cursor → List Char) (i : Nat)
    (rest : List Nat) (st : EditorState) (c : Cursor) (t : List Char)
    (hg : st.cursors[i]? = some c) (ht : eff c = t) :
    (runIns delta eff (i :: rest) st).1
      = (runIns delta eff rest (cursorInsertIdx st i delta t).1).1 := by
  simp only [runIns, hg, ht]

theorem runIns_fst_nil (delta : Int) (eff : Cursor → List Char) (st : EditorState) :
    (runIns delta eff [] st).1 = st := rfl

/-- C3: multi-cursor replay order — with secondary cursors at offsets
[5, 12, 20] and the primary caret inserting "X" at offset 0, the buffered
insertion is applied to the cursors in descending order of their current
start offsets, and the resulting document equals sequentially inserting
"X" into a copy of the original document at offsets 20, 12, 5, 0 in that
descending order. -/
theorem C3_descending_replay (d : List Char) (hd : 20 ≤ d.length) :
    (typeText (tripleCursorState d) ['X']).doc
      = insertAt (insertAt (insertAt (insertAt d 20 ['X']) 12 ['X']) 5 ['X']) 0 ['X'] := by
  have l0 : (insertAt d 0 ['X']).length = d.length + 1 :=
    length_insertAt d 0 ['X'] (by omega)
  have l1 : (insertAt (insertAt d 0 ['X']) 21 ['X']).length = d.length + 2 := by
    rw [length_insertAt _ 21 ['X'] (by rw [l0]; omega), l0]
    rfl
  have l2 : (insertAt (insertAt (insertAt d 0 ['X']) 21 ['X']) 13 ['X']).length
      = d.length + 3 := by
    rw [length_insertAt _ 13 ['X'] (by rw [l1]; omega), l1]
    rfl
  have m0 : min 0 d.length = 0 := by omega
  have m1 : min 21 (d.length + 1) = 21 := by omega
  have m2 : min 13 (d.length + 2) = 13 := by omega
  have m3 : min 6 (d.length + 3) = 6 := by omega
  -- state after the primary insertion at the caret
  have hA : (recIns (tripleCursorState d) 0 ['X']).1
      = c3State (insertAt d 0 ['X']) 6 13 21 := by
    refine estate_ext ?_ ?_ ?_ ?_ rfl rfl rfl rfl rfl
    · show insertAt d (min 0 d.length) ['X'] = insertAt d 0 ['X']
      rw [m0]
    · show markInsAdj (min 0 d.length) 1 false 0 = 1
      rw [m0]
      decide
    · show markInsAdj (min 0 d.length) 1 false 0 = 1
      rw [m0]
      decide
    · show [mkCursor 5 5, mkCursor 12 12, mkCursor 20 20].map
          (fun c => c.adjIns (min 0 d.length) 1)
        = [mkCursor 6 6, mkCursor 13 13, mkCursor 21 21]
      rw [m0]
      decide
  -- replay steps in descending start order
  have hB : (cursorInsertIdx (c3State (insertAt d 0 ['X']) 6 13 21) 2 0 ['X']).1
      = c3State (insertAt (insertAt d 0 ['X']) 21 ['X']) 6 13 22 := by
    simp [cursorInsertIdx, setGrav, recIns, bufInsert, clampOff, c3State, mkCursor,
      Cursor.adjIns, markInsAdj, Int.toNat_ofNat, l0, m1]
  have hC : (cursorInsertIdx (c3State (insertAt (insertAt d 0 ['X']) 21 ['X']) 6 13 22)
        1 0 ['X']).1
      = c3State (insertAt (insertAt (insertAt d 0 ['X']) 21 ['X']) 13 ['X']) 6 14 23 := by
    simp [cursorInsertIdx, setGrav, recIns, bufInsert, clampOff, c3State, mkCursor,
      Cursor.adjIns, markInsAdj, Int.toNat_ofNat, l1, m2]
  have hD : (cursorInsertIdx
        (c3State (insertAt (insertAt (insertAt d 0 ['X']) 21 ['X']) 13 ['X']) 6 14 23)
        0 0 ['X']).1
      = c3State (insertAt (insertAt (insertAt (insertAt d 0 ['X']) 21 ['X']) 13 ['X']) 6 ['X'])
          7 15 24 := by
    simp [cursorInsertIdx, setGrav, recIns, bufInsert, clampOff, c3State, mkCursor,
      Cursor.adjIns, markInsAdj, Int.toNat_ofNat, l2, m3]
  have hdoc : (typeText (tripleCursorState d) ['X']).doc
      = insertAt (insertAt (insertAt (insertAt d 0 ['X']) 21 ['X']) 13 ['X']) 6 ['X'] := by
    rw [typeText_doc]
    show (clearPhase _ _).doc = _
    rw [clearPhase_doc]
    show (mcInsert (recIns (tripleCursorState d) 0 ['X']).1 0 ['X']).1.doc = _
    rw [hA]
    rw [mcInsert_doc_noPaste _ 0 ['X'] (by simp [c3State])]
    have hsort : sortedIdxDesc (c3State (insertAt d 0 ['X']) 6 13 21).cursors
        = [2, 1, 0] := rfl
    rw [hsort]
    rw [runIns_fst_cons 0 (fun _ => ['X']) 2 [1, 0]
      (c3State (insertAt d 0 ['X']) 6 13 21) (mkCursor 21 21) ['X'] rfl rfl, hB]
    rw [runIns_fst_cons 0 (fun _ => ['X']) 1 [0]
      (c3State (insertAt (insertAt d 0 ['X']) 21 ['X']) 6 13 22) (mkCursor 13 13)
      ['X'] rfl rfl, hC]
    rw [runIns_fst_cons 0 (fun _ => ['X']) 0 []
      (c3State (insertAt (insertAt (insertAt d 0 ['X']) 21 ['X']) 13 ['X']) 6 14 23)
      (mkCursor 6 6) ['X'] rfl rfl, hD]
    rfl
  rw [hdoc]
  have s1 : insertAt (insertAt d 0 ['X']) 21 ['X']
      = insertAt (insertAt d 20 ['X']) 0 ['X'] := by
    have := insertAt_comm d 0 20 ['X'] ['X'] (by omega) hd
    simpa using this
  have s2 : insertAt (insertAt (insertAt d 20 ['X']) 0 ['X']) 13 ['X']
      = insertAt (insertAt (insertAt d 20 ['X']) 12 ['X']) 0 ['X'] := by
    have := insertAt_comm (insertAt d 20 ['X']) 0 12 ['X'] ['X'] (by omega)
      (by rw [length_insertAt d 20 ['X'] hd]; omega)
    simpa using this
  have s3 : insertAt (insertAt (insertAt (insertAt d 20 ['X']) 12 ['X']) 0 ['X']) 6 ['X']
      = insertAt (insertAt (insertAt (insertAt d 20 ['X']) 12 ['X']) 5 ['X']) 0 ['X'] := by
    have := insertAt_comm (insertAt (insertAt d 20 ['X']) 12 ['X']) 0 5 ['X'] ['X'] (by omega)
      (by rw [length_insertAt _ 12 ['X'] (by rw [length_insertAt d 20 ['X'] hd]; omega),
        length_insertAt d 20 ['X'] hd]; omega)
    simpa using this
  rw [s1, s2, s3]

/-- Witness for C3 on a concrete 21-character document. -/
theorem C3_witness :
    20 ≤ "abcdefghijklmnopqrstu".toList.length ∧
    (typeText (tripleCursorState "abcdefghijklmnopqrstu".toList) ['X']).doc
      = insertAt (insertAt (insertAt (insertAt "abcdefghijklmnopqrstu".toList 20 ['X'])
          12 ['X']) 5 ['X']) 0 ['X'] :=
  ⟨by decide, C3_descending_replay "abcdefghijklmnopqrstu".toList (by decide)⟩

/-! ## C4 and C5: match_cursor scenarios -/

set_option maxHeartbeats 1000000 in
/-- C4: literal match with single wraparound — in "foo bar foo baz foo"
with the first "foo" selected, the first match_cursor(fuzzy=false) call
adds a cursor over the second "foo" at offset 8, the second call adds a
cursor over the third "foo" at offset 16, and the third call wraps at
most once, finds nothing and leaves the entire state unchanged. -/
theorem C4_literal_match_wraparound :
    (matchCursor matchScenario false).cursors.map offsOf = [(8, 11)] ∧
    (matchCursor (matchCursor matchScenario false) false).cursors.map offsOf
      = [(8, 11), (16, 19)] ∧
    matchCursor (matchCursor (matchCursor matchScenario false) false) false
      = matchCursor (matchCursor matchScenario false) false := by
  refine ⟨by decide, by decide, by decide⟩

set_option maxHeartbeats 1000000 in
/-- C5: fuzzy match equivalence — for the selection "my_variable",
get_next_match builds the variant list {original, lower underscore join,
lower hyphen join, concatenated join} through Casing, and successive
fuzzy match_cursor calls select (case-insensitively, earliest variant
first) the occurrences of "myVariable", "my-variable" and "myvariable"
in the document. -/
theorem C5_fuzzy_match_equivalence :
    fuzzyAlts "my_variable".toList
      = ["my_variable".toList, "my_variable".toList, "my-variable".toList,
         "myvariable".toList] ∧
    (matchCursor fuzzyScenario true).cursors.map offsOf = [(12, 22)] ∧
    (matchCursor (matchCursor (matchCursor fuzzyScenario true) true) true).cursors.map
        offsOf
      = [(12, 22), (23, 34), (35, 45)] := by
  refine ⟨by decide, by decide, by decide⟩

/-! ## C6: non-extending cursor motion -/

/-- Counterexample to C6: with the non-empty selection (2, 5) on
"abcdef", a non-extending rightward character move yields the collapsed
endpoint (5, 5) itself — the motion step is NOT applied — whereas the
claim demands the collapsed endpoint moved by one step, offset 6. -/
theorem C6_cex :
    Cursor.move "abcdef".toList (mkCursor 2 5) .visualPositions 1 false = mkCursor 5 5 ∧
    (moveIter "abcdef".toList 5 .visualPositions 1 none).1 = 6 ∧
    mkCursor 5 5 ≠ { mkCursor 2 5 with start := 6, stop := 6 } := by
  decide

/-- C6 amended: for a cursor with a non-empty selection, non-extending
motion collapses the selection to its start (negative count) or end
(non-negative count) and does not apply the motion step: the resulting
caret is exactly the collapsed endpoint. -/
theorem C6_collapse_only (d : List Char) (c : Cursor) (step : MovementStep)
    (count : Int) (h : c.start ≠ c.stop) :
    Cursor.move d c step count false
      = { c with start := if count < 0 then c.start else c.stop,
                 stop := if count < 0 then c.start else c.stop } := by
  unfold Cursor.move
  simp [h]

/-- Witness for the amended C6. -/
theorem C6_collapse_only_witness :
    ((mkCursor 2 5).start ≠ (mkCursor 2 5).stop) ∧
    Cursor.move "abcdef".toList (mkCursor 2 5) .visualPositions 1 false
      = { mkCursor 2 5 with start := 5, stop := 5 } :=
  ⟨by decide, C6_collapse_only "abcdef".toList (mkCursor 2 5) .visualPositions 1
    (by decide)⟩

/-! ## C7: Casing detection -/

/-- Counterexample to C7: detect strips only underscore/hyphen runs, not
every non-alphanumeric character: on "!a" the claimed stripping would
classify the body "a" as all-lower, but detect leaves "!a" intact and
assigns no case class at all. -/
theorem C7_cex :
    Casing.detect ['!', 'a'] ≠ detectPerClaim ['!', 'a'] ∧
    (Casing.detect ['!', 'a']).case = none ∧
    (detectPerClaim ['!', 'a']).case = some "case" := by
  decide

/-- Every element of (l.dropWhile p).take 1 falsifies p. -/
theorem take_one_dropWhile (p : Char → Bool) :
    ∀ l : List Char, ∀ c ∈ (l.dropWhile p).take 1, p c = false := by
  intro l
  induction l with
  | nil => simp
  | cons a as ih =>
    intro c hc
    rw [List.dropWhile_cons] at hc
    by_cases h : p a
    · simp only [h, if_true] at hc
      exact ih c hc
    · rw [if_neg h] at hc
      simp at hc
      subst hc
      simpa using h

/-- C7 amended (for newline-free input, where the surround regex
matches): detect strips exactly the maximal leading and trailing
underscore/hyphen runs — the stripped parts reassemble to the input, are
all separator characters, and the remaining body neither starts nor ends
with one — and classifies the body by ordered first-match over the fixed
case and separator pattern lists (single-character and other ambiguous
bodies resolve to the first listed category, e.g. "aBc" is classified
"case", not "Case"). -/
theorem C7_detect_amended (t : List Char) (hnl : t.contains '\n' = false) :
    Casing.detect t
      = { case := (casePatterns.find? (fun pr =>
            pr.2 ((t.dropWhile isSepC).reverse.dropWhile isSepC).reverse)).map
            (fun pr => pr.1),
          separator :=
            match sepPatterns.find? (fun pr =>
              pr.2 ((t.dropWhile isSepC).reverse.dropWhile isSepC).reverse) with
            | some pr => pr.1
            | none => none,
          pre := t.takeWhile isSepC,
          suf := ((t.dropWhile isSepC).reverse.takeWhile isSepC).reverse } ∧
    t.takeWhile isSepC ++ ((t.dropWhile isSepC).reverse.dropWhile isSepC).reverse
      ++ ((t.dropWhile isSepC).reverse.takeWhile isSepC).reverse = t ∧
    (∀ c ∈ t.takeWhile isSepC, isSepC c = true) ∧
    (∀ c ∈ ((t.dropWhile isSepC).reverse.takeWhile isSepC).reverse, isSepC c = true) ∧
    (∀ c ∈ (((t.dropWhile isSepC).reverse.dropWhile isSepC).reverse).take 1,
      isSepC c = false) ∧
    (∀ c ∈ ((t.dropWhile isSepC).reverse.dropWhile isSepC).take 1, isSepC c = false) ∧
    (Casing.detect ['a', 'B', 'c']).case = some "case" := by
  have hdf : dropFinalNL t = t := by
    unfold dropFinalNL
    split
    · rename_i h
      exfalso
      have hm : '\n' ∈ t := List.mem_of_mem_getLast? h
      have : t.contains '\n' = true := by simpa using hm
      rw [this] at hnl
      cases hnl
    · rfl
  have hif : ¬ (t.contains '\n' = true) := by
    rw [hnl]
    simp
  have hsm : surroundMatch t
      = some (t.takeWhile isSepC,
          ((t.dropWhile isSepC).reverse.dropWhile isSepC).reverse,
          ((t.dropWhile isSepC).reverse.takeWhile isSepC).reverse) := by
    unfold surroundMatch
    rw [hdf, if_neg hif]
  have hjoin : ((t.dropWhile isSepC).reverse.dropWhile isSepC).reverse
      ++ ((t.dropWhile isSepC).reverse.takeWhile isSepC).reverse
      = t.dropWhile isSepC := by
    rw [← List.reverse_append, List.takeWhile_append_dropWhile, List.reverse_reverse]
  refine ⟨?_, ?_, ?_, ?_, ?_, ?_, by decide⟩
  · unfold Casing.detect
    rw [hsm]
  · rw [List.append_assoc, hjoin, List.takeWhile_append_dropWhile]
  · intro c hc
    exact List.mem_takeWhile_imp hc
  · intro c hc
    rw [List.mem_reverse] at hc
    exact List.mem_takeWhile_imp hc
  · intro c hc
    cases hb : ((t.dropWhile isSepC).reverse.dropWhile isSepC).reverse with
    | nil =>
      rw [hb] at hc
      simp at hc
    | cons x xs =>
      rw [hb] at hc
      simp at hc
      subst hc
      have hx : c ∈ (t.dropWhile isSepC).take 1 := by
        rw [← hjoin, hb]
        simp
      exact take_one_dropWhile isSepC t c hx
  · intro c hc
    exact take_one_dropWhile isSepC (t.dropWhile isSepC).reverse c hc

/-- Witness for the amended C7 at a concrete decorated identifier. -/
theorem C7_detect_amended_witness :
    ("_a_".toList.contains '\n' = false) ∧
    (Casing.detect "_a_".toList
      = { case := (casePatterns.find? (fun pr =>
            pr.2 (("_a_".toList.dropWhile isSepC).reverse.dropWhile isSepC).reverse)).map
            (fun pr => pr.1),
          separator :=
            match sepPatterns.find? (fun pr =>
              pr.2 (("_a_".toList.dropWhile isSepC).reverse.dropWhile isSepC).reverse) with
            | some pr => pr.1
            | none => none,
          pre := "_a_".toList.takeWhile isSepC,
          suf := (("_a_".toList.dropWhile isSepC).reverse.takeWhile isSepC).reverse } ∧
     "_a_".toList.takeWhile isSepC
       ++ (("_a_".toList.dropWhile isSepC).reverse.dropWhile isSepC).reverse
       ++ (("_a_".toList.dropWhile isSepC).reverse.takeWhile isSepC).reverse
       = "_a_".toList ∧
     (∀ c ∈ "_a_".toList.takeWhile isSepC, isSepC c = true) ∧
     (∀ c ∈ (("_a_".toList.dropWhile isSepC).reverse.takeWhile isSepC).reverse,
       isSepC c = true) ∧
     (∀ c ∈ ((("_a_".toList.dropWhile isSepC).reverse.dropWhile isSepC).reverse).take 1,
       isSepC c = false) ∧
     (∀ c ∈ (("_a_".toList.dropWhile isSepC).reverse.dropWhile isSepC).take 1,
       isSepC c = false) ∧
     (Casing.detect ['a', 'B', 'c']).case = some "case") :=
  ⟨by decide, C7_detect_amended "_a_".toList (by decide)⟩

/-! ## C8: redo-stack clearing -/

/-- Counterexample to C8: after two one-character transactions and two
undos the undo stack is empty and the redo stack holds both groups; a
single redo() then pushes a group back onto the undo stack while the redo
stack is still non-empty — a push onto the undo stack that does not clear
the redo stack. -/
theorem C8_cex :
    (umUndo (umUndo (typeText (typeText tinyState ['b']) ['c']))).undoStack = [] ∧
    (umRedo (umUndo (umUndo (typeText (typeText tinyState ['b']) ['c'])))).undoStack.length
      = 1 ∧
    (umRedo (umUndo (umUndo (typeText (typeText tinyState ['b']) ['c'])))).redoStack
      ≠ [] := by
  refine ⟨by decide, by decide, by decide⟩

/-- C8 amended: every push of a freshly recorded action group at
end-user-action (any transaction that actually types text) clears the
redo stack; redo() moves a group back without clearing. -/
theorem C8_fresh_push_clears_redo (st : EditorState) (T : List Char) (hT : T ≠ []) :
    (typeText st T).redoStack = [] :=
  typeText_redoStack st T hT

/-- Witness for the amended C8. -/
theorem C8_fresh_push_clears_redo_witness :
    ((['b'] : List Char) ≠ []) ∧ (typeText tinyState ['b']).redoStack = [] :=
  ⟨by decide, C8_fresh_push_clears_redo tinyState ['b'] (by decide)⟩

/-! ## C9: distinct cursor ranges -/

/-- Counterexample to C9: add_cursor performs no duplicate check, so two
control-clicks at the same location (two add_cursor calls with the same
degenerate range) leave two cursors with identical (start, end) ranges. -/
theorem C9_cex :
    ¬ List.Pairwise (fun a b => a ≠ b)
      ((addCursor (addCursor tinyState 1 1) 1 1).cursors.map offsOf) := by
  decide

/-- C9 amended: add_cursor appends the new cursor unconditionally — no
deduplication of ranges is performed, so pairwise distinctness of cursor
ranges is not an invariant of the cursor collection. -/
theorem C9_addCursor_appends (st : EditorState) (a b : Nat) :
    (addCursor st a b).cursors = st.cursors ++ [mkCursor a b] := rfl

/-! ## C10: paste fallback -/

set_option maxHeartbeats 1000000 in
/-- C10: during a multi-cursor paste whose inserted text "Q" equals the
captured clipboard, the cursor with an empty private clipboard slot
receives the literal "Q" while the cursor with cached text "xy" receives
its own cached text; the paste flag is then reset, so a second insertion
of the same text "Q" is replayed literally at every cursor. -/
theorem C10_paste_fallback :
    (typeText (mcPasteClipboard pasteScenario) ['Q']).doc = "Qab xycdQ".toList ∧
    (typeText (mcPasteClipboard pasteScenario) ['Q']).handledPaste = false ∧
    (typeText (typeText (mcPasteClipboard pasteScenario) ['Q']) ['Q']).doc
      = "QQab xyQcdQQ".toList := by
  refine ⟨by decide, by decide, by decide⟩

end Guake
